import Mathlib

/-!
Verification of the media-intelligence dashboard's data pipeline.

Shallow embedding of the core data pipeline of `src/streamlitapp.py`:

* `process_data` (lines 80-121): CSV ingestion, date coercion, engagement
  coercion, categorical fill, row dropping, `DateString` derivation and the
  date sort;
* the filter block (lines 169-186);
* the summary-aggregation block behind the "Hasilkan Ringkasan" button
  (lines 203-217) and the aggregation primitives it shares with the charts.

The program manipulates pandas DataFrames; the embedding works on a
row-level model.  An uploaded file is modelled by `Upload`: either the byte
stream fails to decode / yields no table (the two library-level failure
modes of `file_content.decode('utf-8')` and `pd.read_csv`), or it decodes
to a `RawTable` (header column names plus rows of optional string cells,
where `none` models the NaN that `pd.read_csv` produces for an empty
field).

Library functions called by the source are modelled as follows, each at the
use site the source makes of them:

* `pd.to_datetime(_, errors='coerce')` is modelled on ISO `YYYY-M-D` cells
  (the only shape the program's data model exercises); every other cell
  yields `none`, modelling NaT.
* `pd.to_numeric(_, errors='coerce')` is modelled on plain decimal
  numerals (optional sign, integer digits, optional fractional digits);
  `.astype(int)` is the C double-to-int64 cast, i.e. truncation toward
  zero, modelled exactly on the parsed numeral.
* `df.sort_values(by='Date')` uses numpy's argsort with the default
  `kind='quicksort'`, an introsort; it is embedded faithfully below
  (`npArgsort`) after numpy's `aquicksort_` / `aheapsort_`
  (`npysort/quicksort.c.src`): median-of-3 introsort with an insertion
  sort for ranges of at most 16 elements and a depth-limited heapsort
  fallback.  Dates order-embed into `Nat` keys, and argsort is
  comparison-based, so sorting the keys is sorting the dates.
-/

namespace MediaIntel

/-- A calendar date, the payload of a parsed `Date` cell.  The source keeps
`datetime64` values; every date the pipeline constructs is produced by
`parseDate`, which validates month and day ranges. -/
structure Date where
  year : Nat
  month : Nat
  day : Nat
deriving DecidableEq, Repr

/-- Order-embedding of dates into `Nat` (valid dates compare exactly as the
`datetime64` values in the source do, both being lexicographic in
year/month/day). -/
def Date.key (d : Date) : Nat :=
  d.year * 10000 + d.month * 100 + d.day

/-- Decimal digit test (`'0'` to `'9'`, code points 48-57). -/
def isDigitChar (c : Char) : Bool :=
  48 ≤ c.toNat && c.toNat ≤ 57

/-- Value of a digit character. -/
def digitVal (c : Char) : Nat := c.toNat - 48

/-- Value of a list of digit characters, most significant first. -/
def digitsVal (cs : List Char) : Nat :=
  cs.foldl (fun a c => 10 * a + digitVal c) 0

/-- Strict natural-number numeral: nonempty, all digits. -/
def parseNatStrict (cs : List Char) : Option Nat :=
  if cs.isEmpty = false ∧ cs.all isDigitChar = true then some (digitsVal cs) else none

/-- Gregorian leap-year test, as used by `pandas` date validation. -/
def isLeap (y : Nat) : Bool :=
  (y % 4 == 0 && y % 100 != 0) || (y % 400 == 0)

/-- Number of days in a month. -/
def daysInMonth (y m : Nat) : Nat :=
  if m = 2 then (if isLeap y then 29 else 28)
  else if m = 4 ∨ m = 6 ∨ m = 9 ∨ m = 11 then 30
  else 31

/-- Split a character list on `'-'`. -/
def splitDash (cs : List Char) : List (List Char) :=
  match cs with
  | [] => [[]]
  | c :: rest =>
    let r := splitDash rest
    if c = '-' then [] :: r
    else match r with
      | [] => [[c]]
      | g :: gs => (c :: g) :: gs

/-- Models `pd.to_datetime(cell, errors='coerce')` on an ISO `YYYY-M-D`
cell: `some` on a valid date (4-digit year, month 1-12, day within the
month, inside the `datetime64[ns]` range 1677-09-22 .. 2262-04-11),
`none` (NaT) on anything else. -/
def parseDate (s : String) : Option Date :=
  match splitDash s.toList with
  | [ys, ms, ds] =>
    match parseNatStrict ys, parseNatStrict ms, parseNatStrict ds with
    | some y, some m, some d =>
      if ys.length = 4 ∧ ms.length ≤ 2 ∧ ds.length ≤ 2 ∧
         1 ≤ m ∧ m ≤ 12 ∧ 1 ≤ d ∧ d ≤ daysInMonth y m ∧
         16770922 ≤ Date.key ⟨y, m, d⟩ ∧ Date.key ⟨y, m, d⟩ ≤ 22620411
      then some ⟨y, m, d⟩ else none
    | _, _, _ => none
  | _ => none

/-- A decimal numeral as accepted by `pd.to_numeric(_, errors='coerce')`
on a string cell: optional sign, integer digits, optional fractional
digits (at least one digit overall), optional decimal exponent.  `fnum`
is the value of the fraction digits and `fdigits` their count, so the
numeral denotes `(-1)^neg * (ip + fnum / 10^fdigits) * 10^ex`. -/
structure PyDecimal where
  neg : Bool
  ip : Nat
  fnum : Nat
  fdigits : Nat
  ex : Int
deriving DecidableEq, Repr

/-- A parsed numeric cell: a finite decimal numeral, a signed infinity
(`inf`/`infinity`), or `nan`. -/
inductive PyNum where
  | finite (x : PyDecimal)
  | infinite (neg : Bool)
  | nan
deriving DecidableEq, Repr

/-- ASCII whitespace, stripped around a numeric cell before parsing. -/
def isWsChar (c : Char) : Bool :=
  c == ' ' || c == '\t' || c == '\n' || c == '\r' || c == '\x0b' || c == '\x0c'

/-- Strip leading and trailing whitespace. -/
def trimWs (cs : List Char) : List Char :=
  ((cs.dropWhile isWsChar).reverse.dropWhile isWsChar).reverse

/-- Exponent part after the `e`: optional sign, then digits. -/
def parseExpPart (cs : List Char) : Option Int :=
  match cs with
  | '+' :: ds =>
    if ds.isEmpty = false ∧ ds.all isDigitChar = true then some ((digitsVal ds : Nat) : Int)
    else none
  | '-' :: ds =>
    if ds.isEmpty = false ∧ ds.all isDigitChar = true then some (-((digitsVal ds : Nat) : Int))
    else none
  | ds =>
    if ds.isEmpty = false ∧ ds.all isDigitChar = true then some ((digitsVal ds : Nat) : Int)
    else none

/-- Attach an optional exponent part to a parsed mantissa (the input is
already lowercased, so the exponent marker is `'e'`). -/
def withExp (neg : Bool) (ip fnum fd : Nat) (rest : List Char) : Option PyDecimal :=
  match rest with
  | [] => some ⟨neg, ip, fnum, fd, 0⟩
  | 'e' :: ecs => (parseExpPart ecs).map (fun ex => ⟨neg, ip, fnum, fd, ex⟩)
  | _ => none

/-- Unsigned decimal numeral: integer digits, optionally a point and
fraction digits (at least one digit overall), optional exponent,
nothing else. -/
def parseDecimalCore (neg : Bool) (cs : List Char) : Option PyDecimal :=
  let ipcs := cs.takeWhile isDigitChar
  match cs.dropWhile isDigitChar with
  | [] => if ipcs.isEmpty then none else some ⟨neg, digitsVal ipcs, 0, 0, 0⟩
  | c :: r2 =>
    if c = '.' then
      let fcs := r2.takeWhile isDigitChar
      if ipcs.isEmpty ∧ fcs.isEmpty then none
      else withExp neg (digitsVal ipcs) (digitsVal fcs) fcs.length (r2.dropWhile isDigitChar)
    else if ipcs.isEmpty then none
    else withExp neg (digitsVal ipcs) 0 0 (c :: r2)

/-- Parse a numeric cell the way `pd.to_numeric(_, errors='coerce')`
accepts strings (it parses with CPython `float` semantics): optional
sign, then either a decimal numeral with optional fraction and exponent
or the case-insensitive tokens `inf`/`infinity`/`nan`, with surrounding
ASCII whitespace ignored.  A failure models the NaN that `coerce`
produces.  (Exotic acceptances — digit-group underscores, non-ASCII
digits or spaces — are not modelled.) -/
def parsePyNum (s : String) : Option PyNum :=
  match (trimWs s.toList).map Char.toLower with
  | [] => none
  | c :: rest =>
    if c = '-' then parseUnsignedNum true rest
    else if c = '+' then parseUnsignedNum false rest
    else parseUnsignedNum false (c :: rest)
where
  parseUnsignedNum (neg : Bool) (cs : List Char) : Option PyNum :=
    if cs = ['i', 'n', 'f'] ∨ cs = ['i', 'n', 'f', 'i', 'n', 'i', 't', 'y'] then
      some (.infinite neg)
    else if cs = ['n', 'a', 'n'] then some .nan
    else (parseDecimalCore neg cs).map .finite

/-- The binary64 value of a numeric cell: a finite value given exactly
as a mantissa-exponent pair denoting `m * 2 ^ e`, or a signed infinity.
(NaN is the `none` of the surrounding `Option`.) -/
inductive F64 where
  | finite (m : Int) (e : Int)
  | infinite (neg : Bool)
deriving DecidableEq, Repr

/-- `⌊log2 n⌋` (0 for `n = 0`), by explicit fuel; `natLog2 n n` is
exact, since the halving recursion takes at most `n` steps. -/
def natLog2 : Nat → Nat → Nat
  | 0, _ => 0
  | fuel + 1, n => if 2 ≤ n then natLog2 fuel (n / 2) + 1 else 0

/-- Is `2 ^ e ≤ num / den`?  (`num, den > 0`.) -/
def twoPowLE (num den : Nat) (e : Int) : Bool :=
  if 0 ≤ e then den * 2 ^ e.toNat ≤ num else den ≤ num * 2 ^ (-e).toNat

/-- `⌊log2 (num / den)⌋` for positive `num / den`. -/
def floorLog2 (num den : Nat) : Int :=
  let cand : Int := (natLog2 num num : Int) - (natLog2 den den : Int)
  if twoPowLE num den cand then cand else cand - 1

/-- Round `num / den` to the nearest natural, ties to even. -/
def rndNE (num den : Nat) : Nat :=
  let q := num / den
  let r := num % den
  if den < 2 * r then q + 1
  else if 2 * r < den then q
  else if q % 2 = 1 then q + 1 else q

/-- Round `(num / den) * 2 ^ k` to the nearest natural, ties to even. -/
def scaledRnd (num den : Nat) (k : Int) : Nat :=
  if 0 ≤ k then rndNE (num * 2 ^ k.toNat) den else rndNE num (den * 2 ^ (-k).toNat)

/-- Round the positive rational `num / den` to the nearest binary64
(ties to even): `some (s, q)` denotes the double `s * 2 ^ (q - 52)`,
`none` is overflow to infinity.  Subnormals and the gradual underflow to
zero are covered by clamping the scaling exponent at the minimum normal
exponent -1022. -/
def roundPosF64 (num den : Nat) : Option (Nat × Int) :=
  if num = 0 then some (0, 0)
  else
    let e := floorLog2 num den
    let q0 : Int := max e (-1022)
    let s0 := scaledRnd num den (52 - q0)
    let s := if s0 = 2 ^ 53 then 2 ^ 52 else s0
    let q := if s0 = 2 ^ 53 then q0 + 1 else q0
    if 1023 < q then none
    else some (s, q)

/-- The binary64 value of a parsed decimal numeral. -/
def PyDecimal.toF64 (x : PyDecimal) : F64 :=
  let num0 := x.ip * 10 ^ x.fdigits + x.fnum
  let num := if 0 ≤ x.ex then num0 * 10 ^ x.ex.toNat else num0
  let den := if 0 ≤ x.ex then 10 ^ x.fdigits else 10 ^ x.fdigits * 10 ^ (-x.ex).toNat
  match roundPosF64 num den with
  | none => .infinite x.neg
  | some (s, q) => .finite (if x.neg then -(s : Int) else (s : Int)) (q - 52)

/-- `pd.to_numeric(cell, errors='coerce')` for one cell, as a binary64;
`none` is NaN (missing cell, unparseable cell, or a literal nan). -/
def cellF64 (cell : Option String) : Option F64 :=
  match cell.bind parsePyNum with
  | none => none
  | some .nan => none
  | some (.infinite b) => some (.infinite b)
  | some (.finite x) => some x.toF64

/-- Truncation toward zero of the double `m * 2 ^ e`, computed on the
mantissa-exponent pair (`truncF64_eq_truncRat` below relates it to
`truncRat` of the exact value). -/
def truncF64 (m e : Int) : Int :=
  if 0 ≤ e then m * 2 ^ e.toNat
  else if 0 ≤ m then ((m.natAbs / 2 ^ (-e).toNat : Nat) : Int)
  else -((m.natAbs / 2 ^ (-e).toNat : Nat) : Int)

/-- The int64 produced by the C cast as numpy executes it on x86-64
(`cvttsd2si`): an in-range value passes through, an out-of-range value
collapses to INT64_MIN. -/
def castInt64 (v : Int) : Int :=
  if -(2 ^ 63) ≤ v ∧ v < 2 ^ 63 then v else -(2 ^ 63)

/-- Line 99 for one cell: a NaN (missing, unparseable or literal nan
cell) becomes 0 through `fillna(0)`; a finite double is truncated toward
zero and cast to int64 by `astype(int)`.  An infinite value never
reaches this point — `.astype(int)` raises on any non-finite entry and
the whole file takes the error branch (see `process_data`) — so the
value returned for it here is immaterial. -/
def engCell (cell : Option String) : Int :=
  match cellF64 cell with
  | none => 0
  | some (.infinite _) => 0
  | some (.finite m e) => castInt64 (truncF64 m e)

/-- Whether a cell carries an infinite numeric value, on which
`.astype(int)` raises for the whole column (pandas
`IntCastingNaNError`). -/
def cellIsInf (cell : Option String) : Bool :=
  match cellF64 cell with
  | some (.infinite _) => true
  | _ => false

/-- Zero-pad to two digits (`strftime` `%m`, `%d`). -/
def fmt2 (n : Nat) : String :=
  if n < 10 then "0" ++ toString n else toString n

/-- Zero-pad to four digits (`strftime` `%Y`). -/
def fmt4 (n : Nat) : String :=
  if n < 10 then "000" ++ toString n
  else if n < 100 then "00" ++ toString n
  else if n < 1000 then "0" ++ toString n
  else toString n

/-- Line 113: `df['Date'].dt.strftime('%Y-%m-%d')` for one date. -/
def Date.fmt (d : Date) : String :=
  fmt4 d.year ++ "-" ++ fmt2 d.month ++ "-" ++ fmt2 d.day

/-- One normalized media-mention record: a row of the cleaned DataFrame
returned by `process_data`.  All four categorical fields are total
strings (never null) by construction. -/
structure Record where
  date : Date
  engagements : Int
  platform : String
  sentiment : String
  media_type : String
  location : String
  date_string : String
deriving DecidableEq, Repr

/-- The parsed CSV container that `pd.read_csv` hands to the cleaning
steps: header column names plus rows of cells; `none` is the NaN a
missing/empty field becomes. -/
structure RawTable where
  columns : List String
  rows : List (List (Option String))
deriving DecidableEq, Repr

/-- An uploaded byte stream.  `undecodable` models bytes that are not
valid UTF-8 (`decode('utf-8')` raises); `noTable` models decodable text
in which `pd.read_csv` finds no tabular structure (it raises, e.g.
`EmptyDataError`); `table` carries the parsed container. -/
inductive Upload where
  | undecodable
  | noTable
  | table (t : RawTable)
deriving DecidableEq, Repr

/-- Position of a column name in the header. -/
def colIdx (cols : List String) (c : String) : Option Nat :=
  match cols with
  | [] => none
  | c0 :: rest => if c0 = c then some 0 else (colIdx rest c).map (· + 1)

/-- Cell of a row under a named column: `df[col]` for one row.  `none`
both when the column is absent and when the cell is NaN; the two cases
are distinguished by the callers via `RawTable.columns`. -/
def cellAt (cols : List String) (row : List (Option String)) (c : String) : Option String :=
  match colIdx cols c with
  | some i => row.getD i none
  | none => none

/-- Lines 95-113 for a single row: date coercion (row dropped on NaT, so
`none` here), engagement coercion, categorical fill with `"Unknown"`
(which also covers a column that is absent from the table entirely,
line 107), and the derived `DateString`. -/
def mkRec (cols : List String) (row : List (Option String)) : Option Record :=
  match (cellAt cols row "Date").bind parseDate with
  | none => none
  | some d => some
      { date := d
        engagements := engCell (cellAt cols row "Engagements")
        platform := (cellAt cols row "Platform").getD "Unknown"
        sentiment := (cellAt cols row "Sentiment").getD "Unknown"
        media_type := (cellAt cols row "Media Type").getD "Unknown"
        location := (cellAt cols row "Location").getD "Unknown"
        date_string := d.fmt }

/-- Lines 95-113 over the whole table: per-row cleaning plus the
`dropna(subset=['Date'])` row drop, in original row order (the sort of
line 116 is applied separately). -/
def normalizeRows (t : RawTable) : List Record :=
  t.rows.filterMap (mkRec t.columns)

/-! ## numpy argsort (`kind='quicksort'`, i.e. introsort)

`df.sort_values(by='Date')` (line 116) asks pandas for
`np.argsort(values, kind='quicksort')` on the `Date` column and takes the
rows in the resulting index order.  The functions below embed numpy's
`aquicksort_` / `aheapsort_` from `npysort/quicksort.c.src`, operating on
an index list `t` into a fixed key list `keys`:

* ranges of at most `SMALL_QUICKSORT + 1 = 16` elements are insertion
  sorted (the in-place shift loop of the C code computes exactly the
  stable insert-after-ties of `insertIdx`);
* larger ranges are partitioned with a median-of-3 pivot and index swaps
  (which is what destroys stability);
* a shared depth budget of `2 * floor(log2 n)` partitions is enforced,
  after which a range is heapsorted;
* the larger partition is pushed on an explicit stack, the smaller
  processed first.

Loops are given explicit fuel; every bound is large enough that the fuel
is never exhausted on the actual control flow. -/

/-- Key of the element at position `p` of the index list `t`. -/
def keyAt (keys t : List Nat) (p : Nat) : Nat :=
  keys.getD (t.getD p 0) 0

/-- Swap positions `a` and `b` of an index list (`INTP_SWAP`). -/
def lswap (t : List Nat) (a b : Nat) : List Nat :=
  (t.set a (t.getD b 0)).set b (t.getD a 0)

/-- Stable insertion of index `i` into an index list: `i` goes after every
`j` with `keys[j] <= keys[i]` and before the first `j` with
`keys[i] < keys[j]` — exactly where the C shift loop
`while (pj > pl && LT(vp, v[*pk])) *pj-- = *pk--;` deposits it. -/
def insertIdx (keys : List Nat) (i : Nat) : List Nat → List Nat
  | [] => [i]
  | j :: rest =>
    if keys.getD j 0 ≤ keys.getD i 0 then j :: insertIdx keys i rest
    else i :: j :: rest

/-- The C insertion sort of a segment, left to right. -/
def insSortSeg (keys : List Nat) (seg : List Nat) : List Nat :=
  seg.foldl (fun acc i => insertIdx keys i acc) []

/-- Insertion sort of the range `[pl, pr]` (inclusive) of `t`, positions
outside the range untouched. -/
def insSortRange (keys t : List Nat) (pl pr : Nat) : List Nat :=
  if pr + 1 ≤ pl then t
  else t.take pl ++ insSortSeg keys ((t.drop pl).take (pr + 1 - pl)) ++ t.drop (pr + 1)

/-- `do ++pi; while (LT(v[*pi], vp));` — first position after `pi` whose
key is not below the pivot. -/
def scanUp (keys t : List Nat) (vp : Nat) : Nat → Nat → Nat
  | 0, pi => pi + 1
  | fuel + 1, pi =>
    if keys.getD (t.getD (pi + 1) 0) 0 < vp then scanUp keys t vp fuel (pi + 1) else pi + 1

/-- `do --pj; while (LT(vp, v[*pj]));` — first position before `pj` whose
key is not above the pivot. -/
def scanDown (keys t : List Nat) (vp : Nat) : Nat → Nat → Nat
  | 0, pj => pj - 1
  | fuel + 1, pj =>
    if vp < keys.getD (t.getD (pj - 1) 0) 0 then scanDown keys t vp fuel (pj - 1) else pj - 1

/-- The crossing loop of the partition: scan up, scan down, swap while the
scans have not crossed; returns the final index list and `pi`. -/
def partLoop (keys : List Nat) (vp : Nat) : Nat → List Nat → Nat → Nat → List Nat × Nat
  | 0, t, pi, _ => (t, pi)
  | fuel + 1, t, pi, pj =>
    let pi' := scanUp keys t vp (t.length + 1) pi
    let pj' := scanDown keys t vp (t.length + 1) pj
    if pj' ≤ pi' then (t, pi')
    else partLoop keys vp fuel (lswap t pi' pj') pi' pj'

/-- One quicksort partition of the range `[pl, pr]`: median-of-3 pivot
selection (three conditional swaps), pivot parked at `pr - 1`, crossing
loop, pivot swapped back to position `pi`.  Returns the new index list
and the split point `pi`. -/
def npPartition (keys t : List Nat) (pl pr : Nat) : List Nat × Nat :=
  let pm := pl + (pr - pl) / 2
  let t1 := if keyAt keys t pm < keyAt keys t pl then lswap t pm pl else t
  let t2 := if keyAt keys t1 pr < keyAt keys t1 pm then lswap t1 pr pm else t1
  let t3 := if keyAt keys t2 pm < keyAt keys t2 pl then lswap t2 pm pl else t2
  let vp := keyAt keys t3 pm
  let t4 := lswap t3 pm (pr - 1)
  let p := partLoop keys vp (t.length + 2) t4 pl (pr - 1)
  (lswap p.1 p.2 (pr - 1), p.2)

/-- `a[i]` of `aheapsort_`, whose heap is 1-based over
`tosort[base ..]`. -/
def heapGet (t : List Nat) (base i : Nat) : Nat :=
  t.getD (base + i - 1) 0

/-- `a[i] = x` of `aheapsort_`. -/
def heapSet (t : List Nat) (base i x : Nat) : List Nat :=
  t.set (base + i - 1) x

/-- The sift-down loop shared by both phases of `aheapsort_`: walk the
larger child while it beats `tmp`, then deposit `tmp`. -/
def siftDown (keys : List Nat) (base n tmp : Nat) : Nat → List Nat → Nat → Nat → List Nat
  | 0, t, i, _ => heapSet t base i tmp
  | fuel + 1, t, i, j =>
    if j ≤ n then
      let j1 := if j < n ∧ keys.getD (heapGet t base j) 0 < keys.getD (heapGet t base (j + 1)) 0
                then j + 1 else j
      if keys.getD tmp 0 < keys.getD (heapGet t base j1) 0 then
        siftDown keys base n tmp fuel (heapSet t base i (heapGet t base j1)) j1 (j1 * 2)
      else heapSet t base i tmp
    else heapSet t base i tmp

/-- First phase of `aheapsort_`: build the max-heap, `l` from `n >> 1`
down to 1. -/
def heapBuild (keys : List Nat) (base n : Nat) : Nat → List Nat → List Nat
  | 0, t => t
  | l + 1, t =>
    heapBuild keys base n l
      (siftDown keys base n (heapGet t base (l + 1)) (n + 2) t (l + 1) ((l + 1) * 2))

/-- Second phase of `aheapsort_`: repeatedly swap the root with the last
heap element and sift down, shrinking the heap. -/
def heapExtract (keys : List Nat) (base : Nat) : Nat → List Nat → List Nat
  | 0, t => t
  | 1, t => t
  | n + 2, t =>
    let tmp := heapGet t base (n + 2)
    let t1 := heapSet t base (n + 2) (heapGet t base 1)
    let t2 := siftDown keys base (n + 1) tmp (n + 4) t1 1 2
    heapExtract keys base (n + 1) t2

/-- `aheapsort_(vv, pl, pr - pl + 1)`: heapsort of the range `[pl, pr]`
of the index list. -/
def aheapsortRange (keys t : List Nat) (pl pr : Nat) : List Nat :=
  let n := pr + 1 - pl
  heapExtract keys pl n (heapBuild keys pl n (n / 2) t)

/-- The driver loop of `aquicksort_`: `stack` holds postponed ranges,
`dl` the remaining partition budget (`depth_limit`, which the C code
keeps in one variable shared across the whole sort). -/
def npQsortLoop (keys : List Nat) : Nat → List Nat → List (Nat × Nat) → Nat → Nat → Int → List Nat
  | 0, t, _, _, _, _ => t
  | fuel + 1, t, stack, pl, pr, dl =>
    if 15 < pr - pl then
      if dl < 0 then
        let t' := aheapsortRange keys t pl pr
        match stack with
        | [] => t'
        | (pl', pr') :: s => npQsortLoop keys fuel t' s pl' pr' (dl - 1)
      else
        let p := npPartition keys t pl pr
        if p.2 - pl < pr - p.2 then
          npQsortLoop keys fuel p.1 ((p.2 + 1, pr) :: stack) pl (p.2 - 1) (dl - 1)
        else
          npQsortLoop keys fuel p.1 ((pl, p.2 - 1) :: stack) (p.2 + 1) pr (dl - 1)
    else
      let t' := insSortRange keys t pl pr
      match stack with
      | [] => t'
      | (pl', pr') :: s => npQsortLoop keys fuel t' s pl' pr' dl

/-- `np.argsort(keys, kind='quicksort')`: the permutation (as an index
list) that sorts `keys` ascending. -/
def npArgsort (keys : List Nat) : List Nat :=
  npQsortLoop keys (2 * keys.length + 1 + 1) (List.range keys.length) [] 0
    (keys.length - 1) (2 * (Nat.log2 keys.length : Int))

/-- Sort key of a record: its date. -/
def dateKey (r : Record) : Nat :=
  r.date.key

/-- Line 116: `df.sort_values(by='Date')` — take the rows in the order of
numpy's argsort of the date keys. -/
def sortByDate (rs : List Record) : List Record :=
  (npArgsort (rs.map dateKey)).filterMap (fun i => rs.get? i)

/-- Result of `process_data`: the cleaned record list, plus the `st.error`
message of the `except` branch (`none` on success).  The `except` branch
returns an empty DataFrame, so the session never crashes. -/
structure ProcessResult where
  records : List Record
  errorMsg : Option String
deriving DecidableEq, Repr

/-- Line 120: the `st.error` text (the `{e}` interpolation is modelled by
the name of the raised exception). -/
def dataErrMsg (cause : String) : String :=
  "Gagal memproses data: " ++ cause ++
    ". Harap pastikan format CSV Anda benar dan berisi kolom yang diharapkan."

/-- Lines 80-121, `process_data`: decode and parse the upload, coerce the
`Date` and `Engagements` columns (a missing required column raises
`KeyError` at line 95 resp. 99, caught by the `except` branch; an
infinite Engagements value makes `.astype(int)` at line 99 raise before
any row is dropped, so the whole file errors), fill the categoricals,
drop NaT rows, derive `DateString`, sort by date.  Any raised error is
caught and reported, and the empty record set is returned. -/
def process_data (u : Upload) : ProcessResult :=
  match u with
  | .undecodable => ⟨[], some (dataErrMsg "UnicodeDecodeError")⟩
  | .noTable => ⟨[], some (dataErrMsg "EmptyDataError")⟩
  | .table t =>
    if "Date" ∈ t.columns then
      if "Engagements" ∈ t.columns then
        if t.rows.any (fun row => cellIsInf (cellAt t.columns row "Engagements")) then
          ⟨[], some (dataErrMsg
            "IntCastingNaNError: Cannot convert non-finite values (NA or inf) to integer")⟩
        else ⟨sortByDate (normalizeRows t), none⟩
      else ⟨[], some (dataErrMsg "KeyError: Engagements")⟩
    else ⟨[], some (dataErrMsg "KeyError: Date")⟩

/-! ## Filter engine (lines 147-186) -/

/-- The user's filter selection: four categorical widgets (`'All'` is the
no-constraint sentinel the selectboxes offer, line 150-153) and the two
date inputs.  `none` in a date models a falsy value in the
`if start_date and end_date` chain of lines 181-186 (the widgets of
lines 165-166 always supply a date, but the code branches on it). -/
structure FilterSel where
  platform : String
  sentiment : String
  media_type : String
  location : String
  start_date : Option Date
  end_date : Option Date
deriving DecidableEq, Repr

/-- Lines 171-172: the platform mask, skipped on the `'All'` sentinel. -/
def filterPlatform (sel : FilterSel) (rs : List Record) : List Record :=
  if sel.platform ≠ "All" then rs.filter (fun r => r.platform == sel.platform) else rs

/-- Lines 173-174: the sentiment mask. -/
def filterSentiment (sel : FilterSel) (rs : List Record) : List Record :=
  if sel.sentiment ≠ "All" then rs.filter (fun r => r.sentiment == sel.sentiment) else rs

/-- Lines 175-176: the media-type mask. -/
def filterMediaType (sel : FilterSel) (rs : List Record) : List Record :=
  if sel.media_type ≠ "All" then rs.filter (fun r => r.media_type == sel.media_type) else rs

/-- Lines 177-178: the location mask. -/
def filterLocation (sel : FilterSel) (rs : List Record) : List Record :=
  if sel.location ≠ "All" then rs.filter (fun r => r.location == sel.location) else rs

/-- Lines 171-178: the four categorical equality masks, applied in
program order; a selection equal to `'All'` contributes no filter. -/
def catFilters (sel : FilterSel) (rs : List Record) : List Record :=
  filterLocation sel (filterMediaType sel (filterSentiment sel (filterPlatform sel rs)))

/-- Line 182: `(filtered_df['Date'].dt.date >= start_date) &
(filtered_df['Date'].dt.date <= end_date)` — both bounds inclusive,
compared on the record's parsed date. -/
def inDateRange (s e : Date) (r : Record) : Bool :=
  decide (s.key ≤ r.date.key ∧ r.date.key ≤ e.key)

/-- Lines 169-186: the whole filter block — categorical masks then the
date-range mask. -/
def applyFilters (sel : FilterSel) (rs : List Record) : List Record :=
  let f4 := catFilters sel rs
  match sel.start_date, sel.end_date with
  | some s, some e => f4.filter (inDateRange s e)
  | some s, none => f4.filter (fun r => decide (s.key ≤ r.date.key))
  | none, some e => f4.filter (fun r => decide (r.date.key ≤ e.key))
  | none, none => f4

/-- Line 162: `df['Date'].min()` (`none` is the NaT of an empty column,
on which `strftime` would raise). -/
def minDate (rs : List Record) : Option Date :=
  match rs with
  | [] => none
  | r :: rest =>
    some (rest.foldl (fun acc x => if x.date.key < acc.key then x.date else acc) r.date)

/-- Line 163: `df['Date'].max()`. -/
def maxDate (rs : List Record) : Option Date :=
  match rs with
  | [] => none
  | r :: rest =>
    some (rest.foldl (fun acc x => if acc.key < x.date.key then x.date else acc) r.date)

/-! ## Aggregator (lines 203-217 and the chart blocks)

pandas `value_counts()` counts groups (hash table, first-encounter order)
and then sorts the counts descending; `groupby(...)['Engagements'].sum()`
returns per-group sums with the group keys sorted ascending
(`sort=True`, the groupby default); `nlargest(k)` takes the `k` largest
values, keeping the first of equal values (`keep='first'`). -/

/-- Add one occurrence of `k` to a tally kept in first-encounter order. -/
def bump (k : String) : List (String × Nat) → List (String × Nat)
  | [] => [(k, 1)]
  | (k', c) :: rest => if k' = k then (k', c + 1) :: rest else (k', c) :: bump k rest

/-- Group counts in first-encounter order. -/
def tally (key : Record → String) (rs : List Record) : List (String × Nat) :=
  rs.foldl (fun acc r => bump (key r) acc) []

/-- Stable descending insertion by `val` (an element arriving later goes
after equal values already placed, i.e. `keep='first'`). -/
def insertDesc {A : Type} (val : A → Int) (x : A) : List A → List A
  | [] => [x]
  | y :: rest => if val x ≤ val y then y :: insertDesc val x rest else x :: y :: rest

/-- Stable descending sort by `val`. -/
def sortDesc {A : Type} (val : A → Int) (l : List A) : List A :=
  l.foldl (fun acc x => insertDesc val x acc) []

/-- `Series.value_counts()`: group counts sorted descending by count. -/
def value_counts (key : Record → String) (rs : List Record) : List (String × Nat) :=
  sortDesc (fun p => (p.2 : Int)) (tally key rs)

/-- `Series.nlargest(n)`: the `n` largest entries by `val`, first
occurrence kept on ties. -/
def nlargestBy {A : Type} (val : A → Int) (n : Nat) (l : List A) : List A :=
  (sortDesc val l).take n

/-- Add `v` to the running sum of group `k` (first-encounter order). -/
def addTo (k : String) (v : Int) : List (String × Int) → List (String × Int)
  | [] => [(k, v)]
  | (k', s) :: rest => if k' = k then (k', s + v) :: rest else (k', s) :: addTo k v rest

/-- Stable ascending insertion by group key (groupby sorts its keys). -/
def insertAscKey (x : String × Int) : List (String × Int) → List (String × Int)
  | [] => [x]
  | y :: rest => if y.1 < x.1 then y :: insertAscKey x rest else x :: y :: rest

/-- Stable ascending sort by group key. -/
def sortAscKey (l : List (String × Int)) : List (String × Int) :=
  l.foldl (fun acc x => insertAscKey x acc) []

/-- Line 210: `groupby(key)['Engagements'].sum()` — per-group engagement
sums, group keys ascending. -/
def groupSumEng (key : Record → String) (rs : List Record) : List (String × Int) :=
  sortAscKey (rs.foldl (fun acc r => addTo (key r) r.engagements acc) [])

/-- Line 213: `filtered_df['Engagements'].sum()`. -/
def totalEng (rs : List Record) : Int :=
  (rs.map Record.engagements).sum

/-- Dictionary lookup in an aggregate table. -/
def lookup {A : Type} (l : List (String × A)) (k : String) : Option A :=
  (l.find? (fun p => p.1 == k)).map (fun p => p.2)

/-- Lines 215-217: `min().strftime('%Y-%m-%d')`, `max().strftime(...)`
and the `f"{min} - {max}"` interpolation.  On an empty set `min()`/`max()`
are NaT and `strftime` raises — modelled by `none`; the program only
reaches this code on a non-empty set. -/
def dateRangeText (rs : List Record) : Option String :=
  match minDate rs, maxDate rs with
  | some a, some b => some (a.fmt ++ " - " ++ b.fmt)
  | _, _ => none

/-- Line 205: the `st.warning` text of the empty-filter branch. -/
def noDataWarn : String :=
  "Tidak ada data untuk menghasilkan ringkasan. Harap sesuaikan filter Anda."

/-- The data points interpolated into the LLM prompt (lines 220-233). -/
structure PromptData where
  date_range_text : String
  total_engagements : Int
  sentiment_counts : List (String × Nat)
  platform_engagements : List (String × Int)
  media_type_counts : List (String × Nat)
  location_counts : List (String × Nat)
deriving DecidableEq, Repr

/-- Outcome of pressing the summary button: either the no-data warning or
an LLM call carrying the prompt's data points. -/
inductive SummaryAction where
  | warnNoData (msg : String)
  | callLLM (p : PromptData)
deriving DecidableEq, Repr

/-- Whether the outcome issues the LLM call (i.e. a prompt was built). -/
def isLLMCall : SummaryAction → Bool
  | .warnNoData _ => false
  | .callLLM _ => true

/-- Lines 203-233, the `generate_summary` button block: an empty filtered
set short-circuits to `st.warning` (no aggregation, no prompt); otherwise
the five aggregates and the date range are computed and interpolated into
the prompt of the LLM call. -/
def generate_summary (filtered : List Record) : SummaryAction :=
  if filtered.isEmpty then .warnNoData noDataWarn
  else .callLLM
    { date_range_text := (dateRangeText filtered).getD ""
      total_engagements := totalEng filtered
      sentiment_counts := value_counts Record.sentiment filtered
      platform_engagements := nlargestBy (fun p => p.2) 3 (groupSumEng Record.platform filtered)
      media_type_counts := nlargestBy (fun p => (p.2 : Int)) 3 (value_counts Record.media_type filtered)
      location_counts := nlargestBy (fun p => (p.2 : Int)) 3 (value_counts Record.location filtered) }

/-! ## Concrete inputs used by witnesses and counterexamples -/

/-- The spec's worked example (§8): three CSV rows with columns
`Date, Engagements, Platform, Sentiment` (no `Media Type`/`Location`
columns); the second row has an unparseable date and a missing sentiment
cell, the third an empty engagements cell. -/
def exTable : RawTable :=
  { columns := ["Date", "Engagements", "Platform", "Sentiment"]
    rows := [
      [some "2024-01-01", some "10", some "X", some "Positive"],
      [some "bad", some "5", some "Y", none],
      [some "2024-01-02", none, some "X", some "Negative"]] }

/-- First surviving record of the worked example. -/
def exRec1 : Record :=
  ⟨⟨2024, 1, 1⟩, 10, "X", "Positive", "Unknown", "Unknown", "2024-01-01"⟩

/-- Second surviving record of the worked example. -/
def exRec2 : Record :=
  ⟨⟨2024, 1, 2⟩, 0, "X", "Negative", "Unknown", "Unknown", "2024-01-02"⟩

/-- Filter selection `platform=X`, everything else inactive, date range
the full span of the worked example. -/
def exSel : FilterSel :=
  ⟨"X", "All", "All", "All", some ⟨2024, 1, 1⟩, some ⟨2024, 1, 2⟩⟩

/-- 17 rows sharing one date, `Engagements` numbering the rows 0..16:
large enough that the sort of line 116 runs a quicksort partition instead
of a plain insertion sort. -/
def cexTable : RawTable :=
  { columns := ["Date", "Engagements"]
    rows := (List.range 17).map (fun i => [some "2024-01-01", some (toString i)]) }

/-- The all-`'All'` selection over the worked example's full date span. -/
def allSel : FilterSel :=
  ⟨"All", "All", "All", "All", some ⟨2024, 1, 1⟩, some ⟨2024, 1, 2⟩⟩

/-! ## Prop-level scaffolding for the introsort proof -/

/-- `t'` is `t` with only the positions of `[lo, hi]` permuted. -/
structure PermWithin (lo hi : Nat) (t t' : List Nat) : Prop where
  len : t'.length = t.length
  perm : List.Perm t' t
  outside : ∀ q, q < lo ∨ hi < q → t'.getD q 0 = t.getD q 0

/-- The segment `[lo, hi]` of an index list. -/
def segOf (lo hi : Nat) (t : List Nat) : List Nat := (t.drop lo).take (hi + 1 - lo)

/-- The pair `(p, q)` lies inside one pending region of `R`. -/
def Covered (R : List (Nat × Nat)) (p q : Nat) : Prop :=
  ∃ r ∈ R, r.1 ≤ p ∧ q ≤ r.2

/-- Every cross pair not inside a single pending region is already in
ascending key order. -/
def OKI (keys t : List Nat) (R : List (Nat × Nat)) : Prop :=
  ∀ p q, p < q → q < t.length → ¬ Covered R p q → keyAt keys t p ≤ keyAt keys t q

/-- Pending regions are nonempty, in bounds and pairwise disjoint. -/
def WfRegions (t : List Nat) (R : List (Nat × Nat)) : Prop :=
  (∀ r ∈ R, r.1 ≤ r.2 ∧ r.2 < t.length) ∧
  R.Pairwise (fun r s => r.2 < s.1 ∨ s.2 < r.1)

/-- Fuel measure of the pending regions: `Σ (2·size − 1)`. -/
def Rmeasure (R : List (Nat × Nat)) : Nat :=
  (R.map (fun r => 2 * (r.2 + 1 - r.1) - 1)).sum

/-- `p` lies in the subtree rooted at `i` of the 1-based implicit heap:
some iterated halving of `p` reaches `i`. -/
def IsDesc (i p : Nat) : Prop := ∃ k, p / 2 ^ k = i

/-! ## Helper lemmas -/

/-- Every record of the sorted output is a record of the input: `argsort`
only supplies indices, and `filterMap get?` can only return elements. -/
theorem mem_of_mem_sortByDate {rs : List Record} {r : Record} (h : r ∈ sortByDate rs) :
    r ∈ rs := by
  unfold sortByDate at h
  rcases List.mem_filterMap.mp h with ⟨i, -, hget⟩
  exact List.get?_mem hget

/-- A name absent from the header has no column index. -/
theorem colIdx_eq_none {cols : List String} {c : String} (h : c ∉ cols) :
    colIdx cols c = none := by
  induction cols with
  | nil => rfl
  | cons c0 rest ih =>
    have h0 : ¬(c0 = c) := fun hc => h (hc ▸ List.mem_cons_self c0 rest)
    have h1 : c ∉ rest := fun hc => h (List.mem_cons_of_mem _ hc)
    simp [colIdx, h0, ih h1]

/-- A column absent from the header yields no cell. -/
theorem cellAt_of_not_mem {cols : List String} (row : List (Option String)) {c : String}
    (h : c ∉ cols) : cellAt cols row c = none := by
  unfold cellAt
  rw [colIdx_eq_none h]

/-- Characterization of a surviving row: each field of the produced record
in terms of the row's cells. -/
theorem mkRec_fields {cols : List String} {row : List (Option String)} {r : Record}
    (h : mkRec cols row = some r) :
    (cellAt cols row "Date").bind parseDate = some r.date ∧
    r.engagements = engCell (cellAt cols row "Engagements") ∧
    r.platform = (cellAt cols row "Platform").getD "Unknown" ∧
    r.sentiment = (cellAt cols row "Sentiment").getD "Unknown" ∧
    r.media_type = (cellAt cols row "Media Type").getD "Unknown" ∧
    r.location = (cellAt cols row "Location").getD "Unknown" ∧
    r.date_string = r.date.fmt := by
  unfold mkRec at h
  cases hd : (cellAt cols row "Date").bind parseDate with
  | none => rw [hd] at h; cases h
  | some d =>
    rw [hd] at h
    rw [← Option.some.inj h]
    exact ⟨rfl, rfl, rfl, rfl, rfl, rfl, rfl⟩

/-- C3 counterexample: on the empty filtered set the summary block does
not build any LLM prompt at all (so no "no data" sentinel is interpolated
into prompt text as the claim states); it stops at the `st.warning` of
line 205. -/
theorem C3_counterexample : isLLMCall (generate_summary []) = false := rfl

/-- C3 (amended): on the empty filtered set the summary block
short-circuits to the no-data warning and never aggregates nor builds a
prompt; the aggregation primitives themselves yield empty tables and a
zero total on empty input, and min/max of an empty date column are NaT,
which is never formatted (formatting it would raise). -/
theorem C3_empty_filter_behavior :
    generate_summary [] = SummaryAction.warnNoData noDataWarn ∧
    value_counts Record.sentiment [] = [] ∧
    groupSumEng Record.platform [] = [] ∧
    value_counts Record.media_type [] = [] ∧
    value_counts Record.location [] = [] ∧
    totalEng [] = 0 ∧
    minDate [] = none ∧ maxDate [] = none ∧ dateRangeText [] = none :=
  ⟨rfl, rfl, rfl, rfl, rfl, rfl, rfl, rfl, rfl⟩

/-! ## C5 (confirmed) -/

/-- C5: the spec's worked example.  The three-row input normalizes to
exactly the two records `exRec1, exRec2` (the `bad`-date row is dropped),
the empty engagements cell is coerced to 0, `Media Type`/`Location` are
`"Unknown"` on both records, the sentiment breakdown is
`{Positive: 1, Negative: 1}`, the top-3 platform engagement sums are
`{X: 10}`, and filtering by `platform=X` over the full date span keeps
both records with total engagements 10. -/
theorem C5_worked_example :
    (process_data (Upload.table exTable)).records = [exRec1, exRec2] ∧
    exRec2.engagements = 0 ∧
    exRec1.media_type = "Unknown" ∧ exRec1.location = "Unknown" ∧
    exRec2.media_type = "Unknown" ∧ exRec2.location = "Unknown" ∧
    lookup (value_counts Record.sentiment [exRec1, exRec2]) "Positive" = some 1 ∧
    lookup (value_counts Record.sentiment [exRec1, exRec2]) "Negative" = some 1 ∧
    (value_counts Record.sentiment [exRec1, exRec2]).length = 2 ∧
    nlargestBy (fun p => p.2) 3 (groupSumEng Record.platform [exRec1, exRec2]) = [("X", 10)] ∧
    applyFilters exSel [exRec1, exRec2] = [exRec1, exRec2] ∧
    (applyFilters exSel [exRec1, exRec2]).length = 2 ∧
    totalEng (applyFilters exSel [exRec1, exRec2]) = 10 := by
  decide

/-! ## C6 (confirmed) -/

/-- C6: the date-range mask is inclusive on both bounds and compares the
record's parsed date (its `date_string` is irrelevant): membership is
exactly `start ≤ date ≤ end`, a record sitting on either bound of a
well-ordered range is kept, and the filter block applies precisely this
mask after the categorical masks whenever both widgets carry a date. -/
theorem C6_date_range_inclusive (s e : Date) (r : Record) :
    (inDateRange s e r = true ↔ s.key ≤ r.date.key ∧ r.date.key ≤ e.key) ∧
    (s.key ≤ e.key → r.date = s ∨ r.date = e → inDateRange s e r = true) ∧
    (∀ ds : String, inDateRange s e { r with date_string := ds } = inDateRange s e r) ∧
    (∀ (sel : FilterSel) (rs : List Record), sel.start_date = some s → sel.end_date = some e →
      applyFilters sel rs = (catFilters sel rs).filter (inDateRange s e)) := by
  refine ⟨by simp [inDateRange], ?_, fun ds => rfl,
    fun sel rs h1 h2 => by simp [applyFilters, h1, h2]⟩
  intro hse hd
  rcases hd with hd | hd
  · subst hd; simp [inDateRange]; exact hse
  · subst hd; simp [inDateRange]; exact hse

/-- Witness for C6 at the worked example's bounds: `exRec1` sits on the
start bound and is kept. -/
theorem C6_witness :
    inDateRange ⟨2024, 1, 1⟩ ⟨2024, 1, 2⟩ exRec1 = true :=
  (C6_date_range_inclusive ⟨2024, 1, 1⟩ ⟨2024, 1, 2⟩ exRec1).2.1 (by decide) (Or.inl rfl)

/-! ## C7 (confirmed) -/

/-- C7: each categorical field of a surviving record is the row's cell
when present and `"Unknown"` otherwise — in particular `"Unknown"` when
the column is absent from the header entirely, and `"Unknown"` when the
cell is NaN; the field is a total `String`, so no null survives
normalization. -/
theorem C7_categorical_fill (t : RawTable) (row : List (Option String)) (r : Record)
    (h : mkRec t.columns row = some r) :
    (r.platform = (cellAt t.columns row "Platform").getD "Unknown" ∧
     r.sentiment = (cellAt t.columns row "Sentiment").getD "Unknown" ∧
     r.media_type = (cellAt t.columns row "Media Type").getD "Unknown" ∧
     r.location = (cellAt t.columns row "Location").getD "Unknown") ∧
    ("Platform" ∉ t.columns → r.platform = "Unknown") ∧
    ("Sentiment" ∉ t.columns → r.sentiment = "Unknown") ∧
    ("Media Type" ∉ t.columns → r.media_type = "Unknown") ∧
    ("Location" ∉ t.columns → r.location = "Unknown") ∧
    (cellAt t.columns row "Platform" = none → r.platform = "Unknown") ∧
    (cellAt t.columns row "Sentiment" = none → r.sentiment = "Unknown") ∧
    (cellAt t.columns row "Media Type" = none → r.media_type = "Unknown") ∧
    (cellAt t.columns row "Location" = none → r.location = "Unknown") := by
  obtain ⟨-, -, hp, hs, hm, hl, -⟩ := mkRec_fields h
  refine ⟨⟨hp, hs, hm, hl⟩, ?_, ?_, ?_, ?_, ?_, ?_, ?_, ?_⟩
  · intro hc; rw [hp, cellAt_of_not_mem row hc]; rfl
  · intro hc; rw [hs, cellAt_of_not_mem row hc]; rfl
  · intro hc; rw [hm, cellAt_of_not_mem row hc]; rfl
  · intro hc; rw [hl, cellAt_of_not_mem row hc]; rfl
  · intro hc; rw [hp, hc]; rfl
  · intro hc; rw [hs, hc]; rfl
  · intro hc; rw [hm, hc]; rfl
  · intro hc; rw [hl, hc]; rfl

/-- Witness for C7 at the worked example's second surviving row: the
`Media Type`/`Location` columns are absent and the fields come out
`"Unknown"`. -/
theorem C7_witness :
    exRec2.media_type = "Unknown" ∧ exRec2.location = "Unknown" :=
  ⟨(C7_categorical_fill exTable [some "2024-01-02", none, some "X", some "Negative"] exRec2
      (by decide)).2.2.2.1 (by decide),
   (C7_categorical_fill exTable [some "2024-01-02", none, some "X", some "Negative"] exRec2
      (by decide)).2.2.2.2.1 (by decide)⟩

/-! ## C8 (confirmed) -/

/-- C8: an upload whose bytes do not decode, or in which the CSV reader
finds no table, makes `process_data` take its `except` branch: the record
set is empty and a user-visible error message is produced (the function
returns normally, so the session does not crash). -/
theorem C8_undecodable_upload (u : Upload)
    (h : u = Upload.undecodable ∨ u = Upload.noTable) :
    (process_data u).records = [] ∧ (process_data u).errorMsg.isSome = true := by
  rcases h with h | h <;> subst h <;> exact ⟨rfl, rfl⟩

/-- Witness for C8 at the undecodable upload. -/
theorem C8_witness :
    (Upload.undecodable = Upload.undecodable ∨ Upload.undecodable = Upload.noTable) ∧
    ((process_data Upload.undecodable).records = [] ∧
     (process_data Upload.undecodable).errorMsg.isSome = true) :=
  ⟨Or.inl rfl, C8_undecodable_upload Upload.undecodable (Or.inl rfl)⟩

/-! ## C10 (confirmed) -/

/-- A conditional equality mask never adds records. -/
theorem maybeFilter_sublist (c : Prop) [Decidable c] (p : Record → Bool) (l : List Record) :
    (if c then l.filter p else l).Sublist l := by
  split
  · exact List.filter_sublist l
  · exact List.Sublist.refl l

/-- The four categorical masks only narrow. -/
theorem catFilters_sublist (sel : FilterSel) (rs : List Record) :
    (catFilters sel rs).Sublist rs := by
  unfold catFilters filterPlatform filterSentiment filterMediaType filterLocation
  exact (maybeFilter_sublist _ _ _).trans ((maybeFilter_sublist _ _ _).trans
    ((maybeFilter_sublist _ _ _).trans (maybeFilter_sublist _ _ _)))

/-- The whole filter block only narrows. -/
theorem applyFilters_sublist (sel : FilterSel) (rs : List Record) :
    (applyFilters sel rs).Sublist rs := by
  have hc := catFilters_sublist sel rs
  unfold applyFilters
  cases sel.start_date <;> cases sel.end_date
  · exact hc
  · exact (List.filter_sublist _).trans hc
  · exact (List.filter_sublist _).trans hc
  · exact (List.filter_sublist _).trans hc

/-- The running minimum of the date fold is below its seed and below every
list element. -/
theorem foldl_minDate_le (l : List Record) :
    ∀ a : Date, (l.foldl (fun acc x => if x.date.key < acc.key then x.date else acc) a).key ≤ a.key ∧
      ∀ x ∈ l, (l.foldl (fun acc x => if x.date.key < acc.key then x.date else acc) a).key ≤ x.date.key := by
  induction l with
  | nil =>
    intro a
    exact ⟨le_refl _, by intro x hx; cases hx⟩
  | cons y ys ih =>
    intro a
    have step_le : (if y.date.key < a.key then y.date else a).key ≤ a.key := by
      by_cases hy : y.date.key < a.key
      · rw [if_pos hy]; exact le_of_lt hy
      · rw [if_neg hy]
    have step_le_y : (if y.date.key < a.key then y.date else a).key ≤ y.date.key := by
      by_cases hy : y.date.key < a.key
      · rw [if_pos hy]
      · rw [if_neg hy]; exact le_of_not_lt hy
    refine ⟨le_trans (ih _).1 step_le, ?_⟩
    intro x hx
    rcases List.mem_cons.mp hx with hx | hx
    · subst hx
      exact le_trans (ih _).1 step_le_y
    · exact (ih _).2 x hx

/-- The running maximum of the date fold is above its seed and above every
list element. -/
theorem foldl_maxDate_ge (l : List Record) :
    ∀ a : Date, a.key ≤ (l.foldl (fun acc x => if acc.key < x.date.key then x.date else acc) a).key ∧
      ∀ x ∈ l, x.date.key ≤ (l.foldl (fun acc x => if acc.key < x.date.key then x.date else acc) a).key := by
  induction l with
  | nil =>
    intro a
    exact ⟨le_refl _, by intro x hx; cases hx⟩
  | cons y ys ih =>
    intro a
    have step_ge : a.key ≤ (if a.key < y.date.key then y.date else a).key := by
      by_cases hy : a.key < y.date.key
      · rw [if_pos hy]; exact le_of_lt hy
      · rw [if_neg hy]
    have step_ge_y : y.date.key ≤ (if a.key < y.date.key then y.date else a).key := by
      by_cases hy : a.key < y.date.key
      · rw [if_pos hy]
      · rw [if_neg hy]; exact le_of_not_lt hy
    refine ⟨le_trans step_ge (ih _).1, ?_⟩
    intro x hx
    rcases List.mem_cons.mp hx with hx | hx
    · subst hx
      exact le_trans step_ge_y (ih _).1
    · exact (ih _).2 x hx

/-- `df['Date'].min()` bounds every record's date from below. -/
theorem minDate_le {rs : List Record} {m : Date} (h : minDate rs = some m) :
    ∀ r ∈ rs, m.key ≤ r.date.key := by
  cases rs with
  | nil => cases h
  | cons r0 rest =>
    intro r hr
    have hm := (Option.some.inj h).symm
    subst hm
    rcases List.mem_cons.mp hr with hr | hr
    · subst hr
      exact (foldl_minDate_le rest r.date).1
    · exact (foldl_minDate_le rest r0.date).2 r hr

/-- `df['Date'].max()` bounds every record's date from above. -/
theorem le_maxDate {rs : List Record} {M : Date} (h : maxDate rs = some M) :
    ∀ r ∈ rs, r.date.key ≤ M.key := by
  cases rs with
  | nil => cases h
  | cons r0 rest =>
    intro r hr
    have hM := (Option.some.inj h).symm
    subst hM
    rcases List.mem_cons.mp hr with hr | hr
    · subst hr
      exact (foldl_maxDate_ge rest r.date).1
    · exact (foldl_maxDate_ge rest r0.date).2 r hr

/-- C4: the filter output is always a subsequence of its input (order
preserved); and when every categorical constraint is the `'All'` sentinel
and the date range is the full data span (start = minimum date, end =
maximum date of a non-empty set), the filter returns the input
unchanged. -/
theorem C4_filter_narrowing (sel : FilterSel) (rs : List Record) :
    (applyFilters sel rs).Sublist rs ∧
    (sel.platform = "All" → sel.sentiment = "All" → sel.media_type = "All" →
      sel.location = "All" → sel.start_date = minDate rs → sel.end_date = maxDate rs →
      rs ≠ [] → applyFilters sel rs = rs) := by
  refine ⟨applyFilters_sublist sel rs, ?_⟩
  intro hp hs hm hl hsd hed hne
  have hcat : catFilters sel rs = rs := by
    unfold catFilters filterPlatform filterSentiment filterMediaType filterLocation
    rw [hp, hs, hm, hl]
    simp
  obtain ⟨m, hmin⟩ : ∃ m, minDate rs = some m := by
    cases rs with
    | nil => exact absurd rfl hne
    | cons r0 rest => exact ⟨_, rfl⟩
  obtain ⟨M, hmax⟩ : ∃ M, maxDate rs = some M := by
    cases rs with
    | nil => exact absurd rfl hne
    | cons r0 rest => exact ⟨_, rfl⟩
  rw [hmin] at hsd
  rw [hmax] at hed
  unfold applyFilters
  rw [hsd, hed, hcat]
  show rs.filter (inDateRange m M) = rs
  rw [List.filter_eq_self]
  intro r hr
  unfold inDateRange
  exact decide_eq_true ⟨minDate_le hmin r hr, le_maxDate hmax r hr⟩

/-- Witness for C4: the all-`'All'` selection over the worked example's
full span returns the two records unchanged. -/
theorem C4_witness :
    (applyFilters allSel [exRec1, exRec2]).Sublist [exRec1, exRec2] ∧
    applyFilters allSel [exRec1, exRec2] = [exRec1, exRec2] :=
  ⟨(C4_filter_narrowing allSel [exRec1, exRec2]).1,
   (C4_filter_narrowing allSel [exRec1, exRec2]).2 rfl rfl rfl rfl (by decide) (by decide)
     (by decide)⟩

/-! ## C2: properties of the embedded sort

For at most 16 keys the introsort driver performs exactly one insertion
sort of the whole index range, which is stable; the lemmas below prove
the insertion sort sorted and stable at the index level and transfer the
result to records. -/

/-- Inserting an index permutes. -/
theorem insertIdx_perm (keys : List Nat) (i : Nat) (l : List Nat) :
    List.Perm (insertIdx keys i l) (i :: l) := by
  induction l with
  | nil => exact List.Perm.refl _
  | cons j rest ih =>
    unfold insertIdx
    by_cases hc : keys.getD j 0 ≤ keys.getD i 0
    · rw [if_pos hc]
      exact (List.Perm.cons j ih).trans (List.Perm.swap i j rest)
    · rw [if_neg hc]

/-- Inserting an index preserves sortedness by key. -/
theorem insertIdx_pairwise {keys : List Nat} {i : Nat} {l : List Nat}
    (h : l.Pairwise (fun a b => keys.getD a 0 ≤ keys.getD b 0)) :
    (insertIdx keys i l).Pairwise (fun a b => keys.getD a 0 ≤ keys.getD b 0) := by
  induction l with
  | nil => exact List.pairwise_singleton _ _
  | cons j rest ih =>
    rw [List.pairwise_cons] at h
    unfold insertIdx
    by_cases hc : keys.getD j 0 ≤ keys.getD i 0
    · rw [if_pos hc]
      rw [List.pairwise_cons]
      refine ⟨?_, ih h.2⟩
      intro b hb
      rcases List.mem_cons.mp ((insertIdx_perm keys i rest).mem_iff.mp hb) with hb' | hb'
      · subst hb'; exact hc
      · exact h.1 b hb'
    · rw [if_neg hc]
      have hij : keys.getD i 0 ≤ keys.getD j 0 := le_of_not_le hc
      rw [List.pairwise_cons]
      refine ⟨?_, List.pairwise_cons.mpr h⟩
      intro b hb
      rcases List.mem_cons.mp hb with hb' | hb'
      · subst hb'; exact hij
      · exact le_trans hij (h.1 b hb')

/-- Stability of one insertion: among the indices of any fixed key `k`,
the new index lands last when its key is `k` and nothing else moves. -/
theorem insertIdx_filter {keys : List Nat} {l : List Nat} (i k : Nat)
    (hs : l.Pairwise (fun a b => keys.getD a 0 ≤ keys.getD b 0)) :
    (insertIdx keys i l).filter (fun j => keys.getD j 0 == k) =
      if keys.getD i 0 = k then l.filter (fun j => keys.getD j 0 == k) ++ [i]
      else l.filter (fun j => keys.getD j 0 == k) := by
  induction l with
  | nil =>
    by_cases hk : keys.getD i 0 = k
    · rw [if_pos hk]
      show List.filter (fun j => keys.getD j 0 == k) [i] = [] ++ [i]
      rw [List.filter_cons, if_pos (beq_iff_eq.mpr hk), List.filter_nil, List.nil_append]
    · rw [if_neg hk]
      show List.filter (fun j => keys.getD j 0 == k) [i] = []
      rw [List.filter_cons, if_neg (fun hb => hk (beq_iff_eq.mp hb)), List.filter_nil]
  | cons j rest ih =>
    rw [List.pairwise_cons] at hs
    unfold insertIdx
    by_cases hc : keys.getD j 0 ≤ keys.getD i 0
    · rw [if_pos hc]
      rw [List.filter_cons, List.filter_cons, ih hs.2]
      by_cases hk : keys.getD i 0 = k
      · rw [if_pos hk, if_pos hk]
        by_cases hj : (keys.getD j 0 == k)
        · rw [if_pos hj, if_pos hj, List.cons_append]
        · rw [if_neg hj, if_neg hj]
      · rw [if_neg hk, if_neg hk]
    · rw [if_neg hc]
      have hij : keys.getD i 0 < keys.getD j 0 := lt_of_not_le hc
      by_cases hk : keys.getD i 0 = k
      · rw [if_pos hk]
        have hnil : (j :: rest).filter (fun j' => keys.getD j' 0 == k) = [] := by
          rw [List.filter_eq_nil_iff]
          intro b hb
          have hbk : k < keys.getD b 0 := by
            rcases List.mem_cons.mp hb with hb' | hb'
            · subst hb'; rw [← hk]; exact hij
            · exact lt_of_lt_of_le (hk ▸ hij) (hs.1 b hb')
          simp only [beq_iff_eq]
          omega
        rw [List.filter_cons, if_pos (beq_iff_eq.mpr hk), hnil]
        rfl
      · rw [if_neg hk]
        rw [List.filter_cons, if_neg (fun hb => hk (beq_iff_eq.mp hb))]

/-- The fold of insertions preserves sortedness. -/
theorem insFold_pairwise (keys : List Nat) (l : List Nat) :
    ∀ acc : List Nat, acc.Pairwise (fun a b => keys.getD a 0 ≤ keys.getD b 0) →
      (l.foldl (fun acc i => insertIdx keys i acc) acc).Pairwise
        (fun a b => keys.getD a 0 ≤ keys.getD b 0) := by
  induction l with
  | nil => intro acc hacc; exact hacc
  | cons i rest ih =>
    intro acc hacc
    exact ih _ (insertIdx_pairwise hacc)

/-- The fold of insertions permutes. -/
theorem insFold_perm (keys : List Nat) (l : List Nat) :
    ∀ acc : List Nat, List.Perm (l.foldl (fun acc i => insertIdx keys i acc) acc) (acc ++ l) := by
  induction l with
  | nil => intro acc; simp
  | cons i rest ih =>
    intro acc
    have h1 : List.Perm (rest.foldl (fun acc i => insertIdx keys i acc) (insertIdx keys i acc))
        (insertIdx keys i acc ++ rest) := ih _
    have h2 : List.Perm (insertIdx keys i acc ++ rest) ((i :: acc) ++ rest) :=
      (insertIdx_perm keys i acc).append_right rest
    exact (h1.trans h2).trans List.perm_middle.symm

/-- The fold of insertions is stable: it preserves the subsequence of any
fixed key. -/
theorem insFold_filter (keys : List Nat) (l : List Nat) (k : Nat) :
    ∀ acc : List Nat, acc.Pairwise (fun a b => keys.getD a 0 ≤ keys.getD b 0) →
      (l.foldl (fun acc i => insertIdx keys i acc) acc).filter (fun j => keys.getD j 0 == k) =
        acc.filter (fun j => keys.getD j 0 == k) ++ l.filter (fun j => keys.getD j 0 == k) := by
  induction l with
  | nil => intro acc hacc; simp
  | cons i rest ih =>
    intro acc hacc
    rw [List.foldl_cons, ih _ (insertIdx_pairwise hacc), insertIdx_filter i k hacc,
      List.filter_cons]
    by_cases hk : keys.getD i 0 = k
    · rw [if_pos hk, if_pos (beq_iff_eq.mpr hk)]
      rw [List.append_assoc, List.singleton_append]
    · rw [if_neg hk, if_neg (fun hb => hk (beq_iff_eq.mp hb))]

/-- The segment insertion sort is sorted by key. -/
theorem insSortSeg_pairwise (keys : List Nat) (l : List Nat) :
    (insSortSeg keys l).Pairwise (fun a b => keys.getD a 0 ≤ keys.getD b 0) :=
  insFold_pairwise keys l [] List.Pairwise.nil

/-- The segment insertion sort permutes its input. -/
theorem insSortSeg_perm (keys : List Nat) (l : List Nat) :
    List.Perm (insSortSeg keys l) l := by
  have h := insFold_perm keys l []
  rw [List.nil_append] at h
  exact h

/-- The segment insertion sort is stable. -/
theorem insSortSeg_filter (keys : List Nat) (l : List Nat) (k : Nat) :
    (insSortSeg keys l).filter (fun j => keys.getD j 0 == k) =
      l.filter (fun j => keys.getD j 0 == k) := by
  have h := insFold_filter keys l k [] List.Pairwise.nil
  rw [List.filter_nil, List.nil_append] at h
  exact h

/-- Over the full range of the index list, the range insertion sort is the
segment insertion sort of the whole list. -/
theorem insSortRange_full (keys t : List Nat) :
    insSortRange keys t 0 (t.length - 1) = insSortSeg keys t := by
  unfold insSortRange
  rw [if_neg (by omega)]
  cases t with
  | nil => rfl
  | cons x xs =>
    have hlen : (x :: xs).length - 1 + 1 - 0 = (x :: xs).length := by simp
    rw [hlen]
    simp [List.take_length, List.drop_length]

/-- For at most 16 keys the introsort driver's while-guard
`pr - pl > SMALL_QUICKSORT` fails at once, so the whole argsort is one
stable insertion sort of the index range. -/
theorem npArgsort_small {keys : List Nat} (h : keys.length ≤ 16) :
    npArgsort keys = insSortSeg keys (List.range keys.length) := by
  have heq := insSortRange_full keys (List.range keys.length)
  rw [List.length_range] at heq
  show npQsortLoop keys (2 * keys.length + 1 + 1) (List.range keys.length) [] 0
      (keys.length - 1) (2 * (Nat.log2 keys.length : Int)) = _
  rw [npQsortLoop, if_neg (by omega)]
  exact heq

/-- Key-list lookup at a valid index is that record's date key. -/
theorem keys_getD_eq {rs : List Record} {i : Nat} {r : Record} (hr : rs.get? i = some r) :
    (rs.map dateKey).getD i 0 = dateKey r := by
  rw [List.get?_eq_getElem?] at hr
  rw [List.getD_eq_getElem?_getD, List.getElem?_map, hr]
  rfl

/-- On at most 16 records the date sort is the stable insertion sort of
the index range. -/
theorem sortByDate_small_eq {rs : List Record} (h : rs.length ≤ 16) :
    sortByDate rs =
      (insSortSeg (rs.map dateKey) (List.range rs.length)).filterMap (fun i => rs.get? i) := by
  unfold sortByDate
  have h' : (rs.map dateKey).length ≤ 16 := by rw [List.length_map]; exact h
  rw [npArgsort_small h', List.length_map]

/-- All indices produced by the small sort are in range. -/
theorem insSortSeg_range_lt {keys : List Nat} {n i : Nat}
    (hi : i ∈ insSortSeg keys (List.range n)) : i < n :=
  List.mem_range.mp ((insSortSeg_perm keys (List.range n)).mem_iff.mp hi)

/-- Reading the whole index range back gives the record list itself. -/
theorem range_filterMap_get (rs : List Record) :
    (List.range rs.length).filterMap (fun i => rs.get? i) = rs := by
  induction rs with
  | nil => rfl
  | cons r rest ih =>
    rw [List.length_cons, List.range_succ_eq_map]
    rw [List.filterMap_cons_some (show (r :: rest).get? 0 = some r from rfl)]
    rw [List.filterMap_map]
    show r :: List.filterMap (fun i => rest.get? i) (List.range rest.length) = r :: rest
    rw [ih]

/-- On at most 16 records the sorted output is a permutation of the
input. -/
theorem sortByDate_perm_small {rs : List Record} (h : rs.length ≤ 16) :
    List.Perm (sortByDate rs) rs := by
  rw [sortByDate_small_eq h]
  have hp := (insSortSeg_perm (rs.map dateKey) (List.range rs.length)).filterMap
    (fun i => rs.get? i)
  rw [range_filterMap_get rs] at hp
  exact hp

/-- Sortedness transfer: on at most 16 records the output is sorted
ascending by date. -/
theorem sortByDate_pairwise_small {rs : List Record} (h : rs.length ≤ 16) :
    (sortByDate rs).Pairwise (fun a b => a.date.key ≤ b.date.key) := by
  rw [sortByDate_small_eq h]
  rw [List.pairwise_filterMap]
  refine (insSortSeg_pairwise (rs.map dateKey) (List.range rs.length)).imp ?_
  intro i j hij r hr r' hr'
  rw [Option.mem_def] at hr hr'
  have h1 := keys_getD_eq hr
  have h2 := keys_getD_eq hr'
  rw [h1, h2] at hij
  exact hij

/-- Transfer of a record-level filter through `filterMap get?` to an
index-level filter. -/
theorem filterMap_get_filter {rs : List Record} (p : Record → Bool) (q : Nat → Bool)
    (hpq : ∀ i r, rs.get? i = some r → q i = p r) :
    ∀ s : List Nat, (∀ i ∈ s, i < rs.length) →
      (s.filterMap (fun i => rs.get? i)).filter p = (s.filter q).filterMap (fun i => rs.get? i) := by
  intro s
  induction s with
  | nil => intro _; rfl
  | cons i s' ih =>
    intro hv
    have hi : i < rs.length := hv i (List.mem_cons_self i s')
    obtain ⟨r, hr⟩ : ∃ r, rs.get? i = some r := by
      rw [List.get?_eq_get hi]
      exact ⟨_, rfl⟩
    have ih' := ih (fun j hj => hv j (List.mem_cons_of_mem i hj))
    rw [List.filterMap_cons_some hr, List.filter_cons, List.filter_cons, hpq i r hr]
    by_cases hp : p r
    · rw [if_pos hp, if_pos hp, List.filterMap_cons_some hr, ih']
    · rw [if_neg hp, if_neg hp, ih']

/-- Bounds on a parsed date: months at most 12, days at most 31. -/
theorem daysInMonth_le (y m : Nat) : daysInMonth y m ≤ 31 := by
  unfold daysInMonth
  split
  · split <;> omega
  · split <;> omega

/-- `parseDate` only produces in-range months and days. -/
theorem parseDate_bounds {s : String} {d : Date} (h : parseDate s = some d) :
    d.month ≤ 12 ∧ d.day ≤ 31 := by
  unfold parseDate at h
  split at h
  · split at h
    · split at h
      · rename_i hcond
        rw [← Option.some.inj h]
        exact ⟨hcond.2.2.2.2.1, le_trans hcond.2.2.2.2.2.2.1 (daysInMonth_le _ _)⟩
      · cases h
    · cases h
  · cases h

/-- The `Nat` date key is injective on in-range dates. -/
theorem date_key_inj {a b : Date} (ha : a.month ≤ 12 ∧ a.day ≤ 31)
    (hb : b.month ≤ 12 ∧ b.day ≤ 31) (h : a.key = b.key) : a = b := by
  obtain ⟨ay, am, ad⟩ := a
  obtain ⟨cy, cm, cd⟩ := b
  unfold Date.key at h
  simp only at h ha hb
  simp only [Date.mk.injEq]
  omega

/-- Every record surviving normalization carries an in-range date. -/
theorem normalizeRows_wf {t : RawTable} {r : Record} (h : r ∈ normalizeRows t) :
    r.date.month ≤ 12 ∧ r.date.day ≤ 31 := by
  rcases List.mem_filterMap.mp h with ⟨row, -, hmk⟩
  obtain ⟨hdate, -⟩ := mkRec_fields hmk
  rcases Option.bind_eq_some.mp hdate with ⟨s, -, hp⟩
  exact parseDate_bounds hp

/-- Stability transfer: on at most 16 records with in-range dates, the
per-date subsequences of the sorted output equal those of the input. -/
theorem sortByDate_stable_small {rs : List Record} (h16 : rs.length ≤ 16)
    (hwf : ∀ r ∈ rs, r.date.month ≤ 12 ∧ r.date.day ≤ 31) (d : Date) :
    (sortByDate rs).filter (fun r => r.date == d) = rs.filter (fun r => r.date == d) := by
  by_cases hex : ∃ r ∈ rs, r.date = d
  · obtain ⟨r0, hr0, hd0⟩ := hex
    have hdwf : d.month ≤ 12 ∧ d.day ≤ 31 := hd0 ▸ hwf r0 hr0
    have hpq : ∀ i r, rs.get? i = some r →
        ((rs.map dateKey).getD i 0 == d.key) = (r.date == d) := by
      intro i r hr
      rw [keys_getD_eq hr]
      by_cases hd : r.date = d
      · show (r.date.key == d.key) = (r.date == d)
        rw [beq_iff_eq.mpr (congrArg Date.key hd), beq_iff_eq.mpr hd]
      · have hne : dateKey r ≠ d.key :=
          fun hk => hd (date_key_inj (hwf r (List.get?_mem hr)) hdwf hk)
        rw [Bool.eq_iff_iff]
        simp only [beq_iff_eq]
        exact ⟨fun hk => absurd hk hne, fun hk => absurd hk hd⟩
    have hv : ∀ i ∈ insSortSeg (rs.map dateKey) (List.range rs.length), i < rs.length :=
      fun i hi => insSortSeg_range_lt hi
    have hv' : ∀ i ∈ List.range rs.length, i < rs.length := fun i hi => List.mem_range.mp hi
    rw [sortByDate_small_eq h16]
    rw [filterMap_get_filter (fun r => r.date == d)
      (fun i => (rs.map dateKey).getD i 0 == d.key) hpq _ hv]
    rw [insSortSeg_filter (rs.map dateKey) (List.range rs.length) d.key]
    rw [← filterMap_get_filter (fun r => r.date == d)
      (fun i => (rs.map dateKey).getD i 0 == d.key) hpq _ hv']
    rw [range_filterMap_get rs]
  · have hnil : ∀ (l : List Record), (∀ r ∈ l, r ∈ rs) →
        l.filter (fun r => r.date == d) = [] := by
      intro l hl
      rw [List.filter_eq_nil_iff]
      intro r hr hbeq
      exact hex ⟨r, hl r hr, beq_iff_eq.mp hbeq⟩
    rw [hnil rs (fun r hr => hr), hnil (sortByDate rs) (fun r hr => mem_of_mem_sortByDate hr)]

theorem getD_set_self {l : List Nat} {p v : Nat} (h : p < l.length) :
    (l.set p v).getD p 0 = v := by
  rw [List.getD_eq_getElem?_getD, List.getElem?_set_eq h]
  rfl

theorem getD_set_ne {l : List Nat} {p q v : Nat} (h : p ≠ q) :
    (l.set p v).getD q 0 = l.getD q 0 := by
  rw [List.getD_eq_getElem?_getD, List.getElem?_set_ne h, ← List.getD_eq_getElem?_getD]

theorem length_lswap (t : List Nat) (a b : Nat) : (lswap t a b).length = t.length := by
  unfold lswap
  rw [List.length_set, List.length_set]

theorem getD_lswap_fst {t : List Nat} {a b : Nat} (ha : a < t.length) (hb : b < t.length) :
    (lswap t a b).getD a 0 = t.getD b 0 := by
  unfold lswap
  by_cases hab : a = b
  · subst hab
    rw [getD_set_self (by rw [List.length_set]; exact ha)]
  · rw [getD_set_ne (fun hba => hab hba.symm), getD_set_self ha]

theorem getD_lswap_snd {t : List Nat} {a b : Nat} (hb : b < t.length) :
    (lswap t a b).getD b 0 = t.getD a 0 := by
  unfold lswap
  rw [getD_set_self (by rw [List.length_set]; exact hb)]

theorem getD_lswap_other {t : List Nat} {a b p : Nat} (hpa : p ≠ a) (hpb : p ≠ b) :
    (lswap t a b).getD p 0 = t.getD p 0 := by
  unfold lswap
  rw [getD_set_ne (fun h => hpb h.symm), getD_set_ne (fun h => hpa h.symm)]

theorem getD_mem {l : List Nat} {q : Nat} (h : q < l.length) : l.getD q 0 ∈ l := by
  rw [List.getD_eq_getElem?_getD, List.getElem?_eq_getElem h]
  exact List.getElem_mem h

theorem perm_cons_set : ∀ (xs : List Nat) (p x : Nat), p < xs.length →
    List.Perm (xs.getD p 0 :: xs.set p x) (x :: xs)
  | [], _, _, h => absurd h (by simp)
  | y :: r, 0, x, _ => by
    show List.Perm (y :: x :: r) (x :: y :: r)
    exact List.Perm.swap x y r
  | y :: r, p + 1, x, h => by
    show List.Perm (r.getD p 0 :: y :: r.set p x) (x :: y :: r)
    have h' : p < r.length := by simpa using h
    exact ((List.Perm.swap y (r.getD p 0) (r.set p x)).trans
      (List.Perm.cons y (perm_cons_set r p x h'))).trans (List.Perm.swap x y r)

theorem perm_cons_set_swap : ∀ (xs : List Nat) (p a b : Nat), p < xs.length →
    List.Perm (a :: xs.set p b) (b :: xs.set p a)
  | [], _, _, _, h => absurd h (by simp)
  | y :: r, 0, a, b, _ => by
    show List.Perm (a :: b :: r) (b :: a :: r)
    exact List.Perm.swap b a r
  | y :: r, p + 1, a, b, h => by
    show List.Perm (a :: y :: r.set p b) (b :: y :: r.set p a)
    have h' : p < r.length := by simpa using h
    exact ((List.Perm.swap y a (r.set p b)).trans
      (List.Perm.cons y (perm_cons_set_swap r p a b h'))).trans (List.Perm.swap b y (r.set p a))

theorem perm_lswap : ∀ (t : List Nat) (a b : Nat), a < t.length → b < t.length →
    List.Perm (lswap t a b) t
  | [], _, _, ha, _ => absurd ha (by simp)
  | x :: xs, 0, 0, _, _ => by
    show List.Perm (x :: xs) (x :: xs)
    exact List.Perm.refl _
  | x :: xs, 0, b + 1, _, hb => by
    show List.Perm (xs.getD b 0 :: xs.set b x) (x :: xs)
    exact perm_cons_set xs b x (by simpa using hb)
  | x :: xs, a + 1, 0, ha, _ => by
    show List.Perm (xs.getD a 0 :: xs.set a x) (x :: xs)
    exact perm_cons_set xs a x (by simpa using ha)
  | x :: xs, a + 1, b + 1, ha, hb => by
    show List.Perm (x :: lswap xs a b) (x :: xs)
    exact List.Perm.cons x (perm_lswap xs a b (by simpa using ha) (by simpa using hb))

theorem perm_set_set : ∀ (l : List Nat) (p q v : Nat), p < l.length → q < l.length → p ≠ q →
    List.Perm ((l.set p (l.getD q 0)).set q v) (l.set p v)
  | [], _, _, _, hp, _, _ => absurd hp (by simp)
  | x :: xs, 0, 0, _, _, _, hpq => absurd rfl hpq
  | x :: xs, 0, q + 1, v, _, hq, _ => by
    show List.Perm (xs.getD q 0 :: xs.set q v) (v :: xs)
    exact perm_cons_set xs q v (by simpa using hq)
  | x :: xs, p + 1, 0, v, hp, _, _ => by
    show List.Perm (v :: xs.set p x) (x :: xs.set p v)
    exact perm_cons_set_swap xs p v x (by simpa using hp)
  | x :: xs, p + 1, q + 1, v, hp, hq, hpq => by
    show List.Perm (x :: (xs.set p (xs.getD q 0)).set q v) (x :: xs.set p v)
    exact List.Perm.cons x (perm_set_set xs p q v (by simpa using hp) (by simpa using hq)
      (fun h => hpq (by rw [h])))

theorem eq_of_getD_eq {a b : List Nat} (hlen : a.length = b.length)
    (h : ∀ q, q < a.length → a.getD q 0 = b.getD q 0) : a = b := by
  apply List.ext_getElem hlen
  intro i h1 h2
  have h3 := h i h1
  rw [List.getD_eq_getElem?_getD, List.getD_eq_getElem?_getD,
    List.getElem?_eq_getElem h1, List.getElem?_eq_getElem h2] at h3
  exact h3

theorem permWithin_refl (lo hi : Nat) (t : List Nat) : PermWithin lo hi t t :=
  ⟨rfl, List.Perm.refl t, fun _ _ => rfl⟩

theorem permWithin_trans {lo hi : Nat} {t t' t'' : List Nat} (h1 : PermWithin lo hi t t')
    (h2 : PermWithin lo hi t' t'') : PermWithin lo hi t t'' :=
  ⟨h2.len.trans h1.len, h2.perm.trans h1.perm,
   fun q hq => (h2.outside q hq).trans (h1.outside q hq)⟩

theorem permWithin_mono {lo hi lo' hi' : Nat} {t t' : List Nat} (hlo : lo' ≤ lo) (hhi : hi ≤ hi')
    (h : PermWithin lo hi t t') : PermWithin lo' hi' t t' :=
  ⟨h.len, h.perm, fun q hq => h.outside q (by omega)⟩

theorem permWithin_lswap {lo hi a b : Nat} {t : List Nat} (ha : a < t.length) (hb : b < t.length)
    (hla : lo ≤ a) (hha : a ≤ hi) (hlb : lo ≤ b) (hhb : b ≤ hi) :
    PermWithin lo hi t (lswap t a b) :=
  ⟨length_lswap t a b, perm_lswap t a b ha hb,
   fun _ hq => getD_lswap_other (by omega) (by omega)⟩

theorem seg_decomp {lo hi : Nat} (t : List Nat) (hlh : lo ≤ hi) :
    t = t.take lo ++ (segOf lo hi t ++ t.drop (hi + 1)) := by
  unfold segOf
  conv_lhs => rw [← List.take_append_drop lo t]
  congr 1
  conv_lhs => rw [← List.take_append_drop (hi + 1 - lo) (t.drop lo)]
  congr 1
  rw [List.drop_drop]
  congr 1
  omega

theorem length_segOf {lo hi : Nat} {t : List Nat} (hhi : hi < t.length) (hlh : lo ≤ hi) :
    (segOf lo hi t).length = hi + 1 - lo := by
  unfold segOf
  rw [List.length_take, List.length_drop]
  omega

theorem segOf_getD {lo hi : Nat} {t : List Nat} {p : Nat} (hlo : lo ≤ p) (hp : p ≤ hi) :
    (segOf lo hi t).getD (p - lo) 0 = t.getD p 0 := by
  unfold segOf
  rw [List.getD_eq_getElem?_getD, List.getElem?_take, if_pos (by omega : p - lo < hi + 1 - lo),
    List.getElem?_drop, show lo + (p - lo) = p by omega, ← List.getD_eq_getElem?_getD]

theorem permWithin_seg {lo hi : Nat} {t t' : List Nat} (h : PermWithin lo hi t t')
    (hlh : lo ≤ hi) : List.Perm (segOf lo hi t') (segOf lo hi t) := by
  have htake : t'.take lo = t.take lo := by
    apply eq_of_getD_eq
    · rw [List.length_take, List.length_take, h.len]
    · intro q hq
      rw [List.length_take] at hq
      have hq' : q < lo := by omega
      have h1 : (t'.take lo).getD q 0 = t'.getD q 0 := by
        rw [List.getD_eq_getElem?_getD, List.getElem?_take, if_pos hq', ← List.getD_eq_getElem?_getD]
      have h2 : (t.take lo).getD q 0 = t.getD q 0 := by
        rw [List.getD_eq_getElem?_getD, List.getElem?_take, if_pos hq', ← List.getD_eq_getElem?_getD]
      rw [h1, h2, h.outside q (Or.inl hq')]
  have hdrop : t'.drop (hi + 1) = t.drop (hi + 1) := by
    apply eq_of_getD_eq
    · rw [List.length_drop, List.length_drop, h.len]
    · intro q _
      have h1 : (t'.drop (hi + 1)).getD q 0 = t'.getD (hi + 1 + q) 0 := by
        rw [List.getD_eq_getElem?_getD, List.getElem?_drop, ← List.getD_eq_getElem?_getD]
      have h2 : (t.drop (hi + 1)).getD q 0 = t.getD (hi + 1 + q) 0 := by
        rw [List.getD_eq_getElem?_getD, List.getElem?_drop, ← List.getD_eq_getElem?_getD]
      rw [h1, h2, h.outside _ (Or.inr (by omega))]
  have hperm : List.Perm (t.take lo ++ (segOf lo hi t' ++ t.drop (hi + 1)))
      (t.take lo ++ (segOf lo hi t ++ t.drop (hi + 1))) := by
    have e1 : t.take lo ++ (segOf lo hi t' ++ t.drop (hi + 1)) = t' := by
      rw [← htake, ← hdrop]
      exact (seg_decomp t' hlh).symm
    rw [e1, ← seg_decomp t hlh]
    exact h.perm
  have hmid := (List.perm_append_left_iff _).mp hperm
  exact (List.perm_append_right_iff _).mp hmid

theorem Rmeasure_cons (lo hi : Nat) (R : List (Nat × Nat)) :
    Rmeasure ((lo, hi) :: R) = (2 * (hi + 1 - lo) - 1) + Rmeasure R := by
  unfold Rmeasure
  rw [List.map_cons, List.sum_cons]

theorem disj_symm : Symmetric (fun r s : Nat × Nat => r.2 < s.1 ∨ s.2 < r.1) := by
  intro a b hab
  rcases hab with h | h
  · exact Or.inr h
  · exact Or.inl h

/-- Permuting the content of one pending region keeps every established
cross-pair ordering. -/
theorem OKI_of_permWithin {keys t t' : List Nat} {lo hi : Nat} {R : List (Nat × Nat)}
    (hmem : (lo, hi) ∈ R)
    (hdisj : R.Pairwise (fun r s => r.2 < s.1 ∨ s.2 < r.1))
    (hbound : hi < t.length) (hlh : lo ≤ hi)
    (hOK : OKI keys t R) (hPW : PermWithin lo hi t t') : OKI keys t' R := by
  have hval : ∀ p, lo ≤ p → p ≤ hi →
      ∃ p0, lo ≤ p0 ∧ p0 ≤ hi ∧ t'.getD p 0 = t.getD p0 0 := by
    intro p hlp hph
    have hsp := permWithin_seg hPW hlh
    have hlen' : (segOf lo hi t').length = hi + 1 - lo := by
      unfold segOf
      rw [List.length_take, List.length_drop, hPW.len]
      omega
    have hmm : t'.getD p 0 ∈ segOf lo hi t' := by
      rw [← segOf_getD hlp hph]
      exact getD_mem (by omega)
    have hmem2 : t'.getD p 0 ∈ segOf lo hi t := hsp.mem_iff.mp hmm
    rcases List.mem_iff_getElem.mp hmem2 with ⟨j, hj, hget⟩
    have hlen : (segOf lo hi t).length = hi + 1 - lo := length_segOf hbound hlh
    refine ⟨lo + j, by omega, by omega, ?_⟩
    have hj' : (segOf lo hi t).getD j 0 = t'.getD p 0 := by
      rw [List.getD_eq_getElem?_getD, List.getElem?_eq_getElem hj]
      exact hget
    have hseg := @segOf_getD lo hi t (lo + j) (by omega) (by omega)
    rw [show lo + j - lo = j by omega] at hseg
    rw [hj'] at hseg
    exact hseg
  intro p q hpq hql hnc
  have hql' : q < t.length := by rw [← hPW.len]; exact hql
  by_cases hpin : lo ≤ p ∧ p ≤ hi
  · by_cases hqin : lo ≤ q ∧ q ≤ hi
    · exact absurd ⟨(lo, hi), hmem, hpin.1, hqin.2⟩ hnc
    · have hqhi : hi < q := by omega
      obtain ⟨p0, hp0l, hp0h, hp0v⟩ := hval p hpin.1 hpin.2
      have hq' : t'.getD q 0 = t.getD q 0 := hPW.outside q (Or.inr hqhi)
      unfold keyAt
      rw [hp0v, hq']
      apply hOK p0 q (by omega) hql'
      intro hc
      rcases hc with ⟨r, hr, hr1, hr2⟩
      have hrne : r ≠ (lo, hi) := by
        intro he
        subst he
        exact absurd hr2 (by simp only [not_le]; omega)
      have hd := hdisj.forall disj_symm hr hmem hrne
      rcases hd with hcase | hcase
      · simp only [] at hcase
        omega
      · simp only [] at hcase
        omega
  · by_cases hqin : lo ≤ q ∧ q ≤ hi
    · have hplo : p < lo := by omega
      obtain ⟨q0, hq0l, hq0h, hq0v⟩ := hval q hqin.1 hqin.2
      have hp' : t'.getD p 0 = t.getD p 0 := hPW.outside p (Or.inl hplo)
      unfold keyAt
      rw [hp', hq0v]
      apply hOK p q0 (by omega) (by omega)
      intro hc
      rcases hc with ⟨r, hr, hr1, hr2⟩
      have hrne : r ≠ (lo, hi) := by
        intro he
        subst he
        exact absurd hr1 (by simp only [not_le]; omega)
      have hd := hdisj.forall disj_symm hr hmem hrne
      rcases hd with hcase | hcase
      · simp only [] at hcase
        omega
      · simp only [] at hcase
        omega
    · have hp' := hPW.outside p (by omega)
      have hq' := hPW.outside q (by omega)
      unfold keyAt
      rw [hp', hq']
      exact hOK p q hpq hql' hnc

/-- A fully sorted head region can be discharged from the invariant. -/
theorem OKI_pop {keys t : List Nat} {lo hi : Nat} {R : List (Nat × Nat)}
    (hOK : OKI keys t ((lo, hi) :: R))
    (hsorted : ∀ p q, lo ≤ p → p < q → q ≤ hi → q < t.length →
      keyAt keys t p ≤ keyAt keys t q) :
    OKI keys t R := by
  intro p q hpq hql hnc
  by_cases hc : lo ≤ p ∧ q ≤ hi
  · exact hsorted p q hc.1 hpq hc.2 hql
  · apply hOK p q hpq hql
    intro hcov
    rcases hcov with ⟨r, hr, h1, h2⟩
    rcases List.mem_cons.mp hr with he | hm
    · subst he
      exact hc ⟨h1, h2⟩
    · exact hnc ⟨r, hm, h1, h2⟩

/-- After a partition of the head region, the invariant holds for the two
halves around the split point. -/
theorem OKI_split {keys t : List Nat} {pl pr pi : Nat} {R : List (Nat × Nat)}
    (hOK : OKI keys t ((pl, pr) :: R)) (hpl : pl < pi) (hpr : pi < pr)
    (hle : ∀ a, pl ≤ a → a < pi → keyAt keys t a ≤ keyAt keys t pi)
    (hge : ∀ b, pi < b → b ≤ pr → keyAt keys t pi ≤ keyAt keys t b) :
    OKI keys t ((pl, pi - 1) :: (pi + 1, pr) :: R) := by
  intro p q hpq hql hnc
  by_cases hc : pl ≤ p ∧ q ≤ pr
  · by_cases hp : p < pi
    · by_cases hq : q ≤ pi
      · by_cases hq' : q = pi
        · subst hq'
          exact hle p hc.1 hp
        · exact absurd ⟨(pl, pi - 1), List.mem_cons_self _ _, hc.1, by simp only []; omega⟩ hnc
      · exact le_trans (hle p hc.1 hp) (hge q (by omega) hc.2)
    · by_cases hp' : p = pi
      · subst hp'
        exact hge q (by omega) hc.2
      · exact absurd ⟨(pi + 1, pr), List.mem_cons_of_mem _ (List.mem_cons_self _ _),
          by simp only []; omega, hc.2⟩ hnc
  · apply hOK p q hpq hql
    intro hcov
    rcases hcov with ⟨r, hr, h1, h2⟩
    rcases List.mem_cons.mp hr with he | hm
    · subst he
      exact hc ⟨h1, h2⟩
    · exact hnc ⟨r, List.mem_cons_of_mem _ (List.mem_cons_of_mem _ hm), h1, h2⟩

/-- The insertion sort of `[pl, pr]` permutes only that range and leaves
it sorted by key. -/
theorem insSortRange_spec {keys t : List Nat} {pl pr : Nat} (hlh : pl ≤ pr)
    (hpr : pr < t.length) :
    PermWithin pl pr t (insSortRange keys t pl pr) ∧
    (∀ p q, pl ≤ p → p < q → q ≤ pr →
      keyAt keys (insSortRange keys t pl pr) p ≤ keyAt keys (insSortRange keys t pl pr) q) := by
  have hseg : (t.drop pl).take (pr + 1 - pl) = segOf pl pr t := rfl
  have hS := insSortSeg_perm keys (segOf pl pr t)
  have hSlen : (insSortSeg keys (segOf pl pr t)).length = pr + 1 - pl := by
    rw [hS.length_eq, length_segOf hpr hlh]
  have hE : insSortRange keys t pl pr =
      t.take pl ++ (insSortSeg keys (segOf pl pr t) ++ t.drop (pr + 1)) := by
    unfold insSortRange
    rw [if_neg (by omega), hseg, List.append_assoc]
  have htklen : (t.take pl).length = pl := by
    rw [List.length_take]
    omega
  have hgot : ∀ p, pl ≤ p → p ≤ pr →
      (insSortRange keys t pl pr).getD p 0 = (insSortSeg keys (segOf pl pr t)).getD (p - pl) 0 := by
    intro p hp hpr'
    rw [hE, List.getD_eq_getElem?_getD, List.getElem?_append_right (by omega), htklen,
      List.getElem?_append, hSlen, if_pos (by omega), ← List.getD_eq_getElem?_getD]
  refine ⟨⟨?_, ?_, ?_⟩, ?_⟩
  · rw [hE, List.length_append, List.length_append, htklen, hSlen, List.length_drop]
    omega
  · rw [hE]
    have h1 : List.Perm (insSortSeg keys (segOf pl pr t) ++ t.drop (pr + 1))
        (segOf pl pr t ++ t.drop (pr + 1)) := hS.append_right _
    have h2 := h1.append_left (t.take pl)
    exact h2.trans (List.Perm.of_eq (seg_decomp t hlh).symm)
  · intro q hq
    rcases hq with hq | hq
    · rw [hE, List.getD_eq_getElem?_getD, List.getElem?_append, htklen, if_pos (by omega),
        ← List.getD_eq_getElem?_getD]
      rw [List.getD_eq_getElem?_getD, List.getElem?_take, if_pos hq, ← List.getD_eq_getElem?_getD]
    · rw [hE, List.getD_eq_getElem?_getD, List.getElem?_append_right (by omega), htklen,
        List.getElem?_append_right (by omega), hSlen, List.getElem?_drop,
        show pr + 1 + (q - pl - (pr + 1 - pl)) = q by omega, ← List.getD_eq_getElem?_getD]
  · intro p q hp hpq hq
    unfold keyAt
    rw [hgot p hp (by omega), hgot q (by omega) hq]
    have hpair := insSortSeg_pairwise keys (segOf pl pr t)
    rw [List.pairwise_iff_getElem] at hpair
    have hi1 : p - pl < (insSortSeg keys (segOf pl pr t)).length := by omega
    have hi2 : q - pl < (insSortSeg keys (segOf pl pr t)).length := by omega
    have hp2 := hpair (p - pl) (q - pl) hi1 hi2 (by omega)
    have e1 : (insSortSeg keys (segOf pl pr t)).getD (p - pl) 0 =
        (insSortSeg keys (segOf pl pr t)).get ⟨p - pl, hi1⟩ := by
      rw [List.getD_eq_getElem?_getD, List.getElem?_eq_getElem hi1]
      rfl
    have e2 : (insSortSeg keys (segOf pl pr t)).getD (q - pl) 0 =
        (insSortSeg keys (segOf pl pr t)).get ⟨q - pl, hi2⟩ := by
      rw [List.getD_eq_getElem?_getD, List.getElem?_eq_getElem hi2]
      rfl
    rw [e1, e2]
    exact hp2

theorem keyAt_lswap_fst {keys t : List Nat} {a b : Nat} (ha : a < t.length) (hb : b < t.length) :
    keyAt keys (lswap t a b) a = keyAt keys t b := by
  unfold keyAt
  rw [getD_lswap_fst ha hb]

theorem keyAt_lswap_snd {keys t : List Nat} {a b : Nat} (hb : b < t.length) :
    keyAt keys (lswap t a b) b = keyAt keys t a := by
  unfold keyAt
  rw [getD_lswap_snd hb]

theorem keyAt_lswap_other {keys t : List Nat} {a b p : Nat} (hpa : p ≠ a) (hpb : p ≠ b) :
    keyAt keys (lswap t a b) p = keyAt keys t p := by
  unfold keyAt
  rw [getD_lswap_other hpa hpb]

theorem scanUp_spec (keys t : List Nat) (vp : Nat) :
    ∀ (fuel pi p0 : Nat), pi < p0 → p0 ≤ pi + fuel →
      ¬ keyAt keys t p0 < vp →
      pi < scanUp keys t vp fuel pi ∧ scanUp keys t vp fuel pi ≤ p0 ∧
      ¬ keyAt keys t (scanUp keys t vp fuel pi) < vp ∧
      ∀ a, pi < a → a < scanUp keys t vp fuel pi → keyAt keys t a < vp := by
  intro fuel
  induction fuel with
  | zero =>
    intro pi p0 h1 h2 _
    exact absurd h1 (by omega)
  | succ fuel ih =>
    intro pi p0 h1 h2 h0
    by_cases hc : keys.getD (t.getD (pi + 1) 0) 0 < vp
    · rw [scanUp, if_pos hc]
      have hne : pi + 1 ≠ p0 := by
        intro he
        rw [he] at hc
        exact h0 hc
      obtain ⟨g1, g2, g3, g4⟩ := ih (pi + 1) p0 (by omega) (by omega) h0
      refine ⟨by omega, g2, g3, ?_⟩
      intro a ha1 ha2
      by_cases hae : a = pi + 1
      · subst hae
        exact hc
      · exact g4 a (by omega) ha2
    · rw [scanUp, if_neg hc]
      exact ⟨by omega, by omega, hc, fun a ha1 ha2 => absurd ha1 (by omega)⟩

theorem scanDown_spec (keys t : List Nat) (vp : Nat) :
    ∀ (fuel pj p0 : Nat), p0 < pj → pj ≤ p0 + fuel →
      ¬ vp < keyAt keys t p0 →
      scanDown keys t vp fuel pj < pj ∧ p0 ≤ scanDown keys t vp fuel pj ∧
      ¬ vp < keyAt keys t (scanDown keys t vp fuel pj) ∧
      ∀ b, scanDown keys t vp fuel pj < b → b < pj → vp < keyAt keys t b := by
  intro fuel
  induction fuel with
  | zero =>
    intro pj p0 h1 h2 _
    exact absurd h1 (by omega)
  | succ fuel ih =>
    intro pj p0 h1 h2 h0
    by_cases hc : vp < keys.getD (t.getD (pj - 1) 0) 0
    · rw [scanDown, if_pos hc]
      have hne : pj - 1 ≠ p0 := by
        intro he
        rw [he] at hc
        exact h0 hc
      obtain ⟨g1, g2, g3, g4⟩ := ih (pj - 1) p0 (by omega) (by omega) h0
      refine ⟨by omega, g2, g3, ?_⟩
      intro b hb1 hb2
      by_cases hbe : b = pj - 1
      · subst hbe
        exact hc
      · exact g4 b hb1 (by omega)
    · rw [scanDown, if_neg hc]
      exact ⟨by omega, by omega, hc, fun b hb1 hb2 => absurd hb1 (by omega)⟩

theorem partLoop_spec (keys : List Nat) (vp pl pr : Nat) :
    ∀ (fuel : Nat) (t : List Nat) (pi pj : Nat),
      pr < t.length → pl ≤ pi → pi < pj → pj ≤ pr - 1 → pl + 2 ≤ pr →
      pj - pi ≤ fuel →
      (∀ a, pl ≤ a → a ≤ pi → keyAt keys t a ≤ vp) →
      (∀ b, pj ≤ b → b ≤ pr - 1 → vp ≤ keyAt keys t b) →
      keyAt keys t (pr - 1) = vp →
      vp ≤ keyAt keys t pr →
      PermWithin pl pr t (partLoop keys vp fuel t pi pj).1 ∧
      (partLoop keys vp fuel t pi pj).1.length = t.length ∧
      pl < (partLoop keys vp fuel t pi pj).2 ∧
      (partLoop keys vp fuel t pi pj).2 ≤ pr - 1 ∧
      (∀ a, pl ≤ a → a < (partLoop keys vp fuel t pi pj).2 →
        keyAt keys (partLoop keys vp fuel t pi pj).1 a ≤ vp) ∧
      (∀ b, (partLoop keys vp fuel t pi pj).2 ≤ b → b ≤ pr - 1 →
        vp ≤ keyAt keys (partLoop keys vp fuel t pi pj).1 b) ∧
      keyAt keys (partLoop keys vp fuel t pi pj).1 (pr - 1) = vp ∧
      vp ≤ keyAt keys (partLoop keys vp fuel t pi pj).1 pr := by
  intro fuel
  induction fuel with
  | zero =>
    intro t pi pj _ _ h3 _ _ hfuel _ _ _ _
    exact absurd h3 (by omega)
  | succ fuel ih =>
    intro t pi pj hlen h2 h3 h4 h5 hfuel hA hB hD hF
    set pi' := scanUp keys t vp (t.length + 1) pi with hpidef
    set pj' := scanDown keys t vp (t.length + 1) pj with hpjdef
    obtain ⟨su1, su2, su3, su4⟩ := scanUp_spec keys t vp (t.length + 1) pi (pr - 1)
      (by omega) (by omega) (by rw [hD]; omega)
    obtain ⟨sd1, sd2, sd3, sd4⟩ := scanDown_spec keys t vp (t.length + 1) pj pl
      (by omega) (by omega) (not_lt.mpr (hA pl (le_refl pl) h2))
    have hstep : partLoop keys vp (fuel + 1) t pi pj =
        if pj' ≤ pi' then (t, pi')
        else partLoop keys vp fuel (lswap t pi' pj') pi' pj' := rfl
    by_cases hcross : pj' ≤ pi'
    · rw [hstep, if_pos hcross]
      refine ⟨permWithin_refl pl pr t, rfl, by omega, by omega, ?_, ?_, hD, hF⟩
      · intro a ha1 ha2
        by_cases hle : a ≤ pi
        · exact hA a ha1 hle
        · exact le_of_lt (su4 a (by omega) ha2)
      · intro b hb1 hb2
        by_cases hbe : b = pi'
        · subst hbe
          exact not_lt.mp su3
        · by_cases hbj : pj ≤ b
          · exact hB b hbj hb2
          · exact le_of_lt (sd4 b (by omega) (by omega))
    · rw [hstep, if_neg hcross]
      push_neg at hcross
      have hlen2 : (lswap t pi' pj').length = t.length := length_lswap t pi' pj'
      have hpi'lt : pi' < t.length := by omega
      have hpj'lt : pj' < t.length := by omega
      have hA' : ∀ a, pl ≤ a → a ≤ pi' → keyAt keys (lswap t pi' pj') a ≤ vp := by
        intro a ha1 ha2
        by_cases hae : a = pi'
        · subst hae
          rw [keyAt_lswap_fst hpi'lt hpj'lt]
          exact not_lt.mp sd3
        · rw [keyAt_lswap_other hae (by omega)]
          by_cases hle : a ≤ pi
          · exact hA a ha1 hle
          · exact le_of_lt (su4 a (by omega) (by omega))
      have hB' : ∀ b, pj' ≤ b → b ≤ pr - 1 → vp ≤ keyAt keys (lswap t pi' pj') b := by
        intro b hb1 hb2
        by_cases hbe : b = pj'
        · subst hbe
          rw [keyAt_lswap_snd hpj'lt]
          exact not_lt.mp su3
        · rw [keyAt_lswap_other (by omega) hbe]
          by_cases hbj : pj ≤ b
          · exact hB b hbj hb2
          · exact le_of_lt (sd4 b (by omega) (by omega))
      have hD' : keyAt keys (lswap t pi' pj') (pr - 1) = vp := by
        rw [keyAt_lswap_other (by omega) (by omega)]
        exact hD
      have hF' : vp ≤ keyAt keys (lswap t pi' pj') pr := by
        rw [keyAt_lswap_other (by omega) (by omega)]
        exact hF
      obtain ⟨r1, r2, r3, r4, r5, r6, r7, r8⟩ := ih (lswap t pi' pj') pi' pj'
        (by rw [hlen2]; exact hlen) (by omega) hcross (by omega) h5 (by omega) hA' hB' hD' hF'
      have hPW0 : PermWithin pl pr t (lswap t pi' pj') :=
        permWithin_lswap hpi'lt hpj'lt (by omega) (by omega) (by omega) (by omega)
      exact ⟨permWithin_trans hPW0 r1, by rw [r2, hlen2], r3, r4, r5, r6, r7, r8⟩

/-- Shared tail of the partition: with the median parked at `pm` and the
three sampled keys in order, the crossing loop plus the final pivot swap
split `[pl, pr]` at the returned point. -/
theorem npPartition_core {keys t t3 : List Nat} {pl pr pm : Nat}
    (hlen : pr < t.length) (hsize : pl + 16 ≤ pr) (hpm1 : pl + 8 ≤ pm) (hpm2 : pm + 2 ≤ pr)
    (ht3len : t3.length = t.length)
    (ht3pw : PermWithin pl pr t t3)
    (h31 : keyAt keys t3 pl ≤ keyAt keys t3 pm)
    (h32 : keyAt keys t3 pm ≤ keyAt keys t3 pr) :
    PermWithin pl pr t
      (lswap (partLoop keys (keyAt keys t3 pm) (t.length + 2) (lswap t3 pm (pr - 1)) pl
        (pr - 1)).1
        (partLoop keys (keyAt keys t3 pm) (t.length + 2) (lswap t3 pm (pr - 1)) pl (pr - 1)).2
        (pr - 1)) ∧
    pl < (partLoop keys (keyAt keys t3 pm) (t.length + 2) (lswap t3 pm (pr - 1)) pl (pr - 1)).2 ∧
    (partLoop keys (keyAt keys t3 pm) (t.length + 2) (lswap t3 pm (pr - 1)) pl (pr - 1)).2 < pr ∧
    (∀ a, pl ≤ a →
      a < (partLoop keys (keyAt keys t3 pm) (t.length + 2) (lswap t3 pm (pr - 1)) pl (pr - 1)).2 →
      keyAt keys
        (lswap (partLoop keys (keyAt keys t3 pm) (t.length + 2) (lswap t3 pm (pr - 1)) pl
          (pr - 1)).1
          (partLoop keys (keyAt keys t3 pm) (t.length + 2) (lswap t3 pm (pr - 1)) pl (pr - 1)).2
          (pr - 1)) a ≤
      keyAt keys
        (lswap (partLoop keys (keyAt keys t3 pm) (t.length + 2) (lswap t3 pm (pr - 1)) pl
          (pr - 1)).1
          (partLoop keys (keyAt keys t3 pm) (t.length + 2) (lswap t3 pm (pr - 1)) pl (pr - 1)).2
          (pr - 1))
        (partLoop keys (keyAt keys t3 pm) (t.length + 2) (lswap t3 pm (pr - 1)) pl (pr - 1)).2) ∧
    (∀ b, (partLoop keys (keyAt keys t3 pm) (t.length + 2) (lswap t3 pm (pr - 1)) pl (pr - 1)).2 < b →
      b ≤ pr →
      keyAt keys
        (lswap (partLoop keys (keyAt keys t3 pm) (t.length + 2) (lswap t3 pm (pr - 1)) pl
          (pr - 1)).1
          (partLoop keys (keyAt keys t3 pm) (t.length + 2) (lswap t3 pm (pr - 1)) pl (pr - 1)).2
          (pr - 1))
        (partLoop keys (keyAt keys t3 pm) (t.length + 2) (lswap t3 pm (pr - 1)) pl (pr - 1)).2 ≤
      keyAt keys
        (lswap (partLoop keys (keyAt keys t3 pm) (t.length + 2) (lswap t3 pm (pr - 1)) pl
          (pr - 1)).1
          (partLoop keys (keyAt keys t3 pm) (t.length + 2) (lswap t3 pm (pr - 1)) pl (pr - 1)).2
          (pr - 1)) b) := by
  set vp := keyAt keys t3 pm with hvp
  set t4 := lswap t3 pm (pr - 1) with ht4def
  have hpmlt : pm < t3.length := by omega
  have hpr1lt : pr - 1 < t3.length := by omega
  have ht4len : t4.length = t.length := by
    rw [ht4def, length_lswap]
    exact ht3len
  have hA : ∀ a, pl ≤ a → a ≤ pl → keyAt keys t4 a ≤ vp := by
    intro a ha1 ha2
    have hae : a = pl := le_antisymm ha2 ha1
    subst hae
    rw [ht4def, keyAt_lswap_other (by omega) (by omega)]
    exact h31
  have hB : ∀ b, pr - 1 ≤ b → b ≤ pr - 1 → vp ≤ keyAt keys t4 b := by
    intro b hb1 hb2
    have hbe : b = pr - 1 := le_antisymm hb2 hb1
    subst hbe
    rw [ht4def, keyAt_lswap_snd hpr1lt]
  have hD : keyAt keys t4 (pr - 1) = vp := by
    rw [ht4def, keyAt_lswap_snd hpr1lt]
  have hF : vp ≤ keyAt keys t4 pr := by
    rw [ht4def, keyAt_lswap_other (by omega) (by omega)]
    exact h32
  obtain ⟨r1, r2, r3, r4, r5, r6, r7, r8⟩ := partLoop_spec keys vp pl pr (t.length + 2) t4 pl
    (pr - 1) (by rw [ht4len]; exact hlen) (le_refl pl) (by omega) (le_refl _) (by omega)
    (by omega) hA hB hD hF
  set P := partLoop keys vp (t.length + 2) t4 pl (pr - 1) with hPdef
  have hPlen : P.1.length = t.length := by rw [r2, ht4len]
  have hP2lt : P.2 < P.1.length := by omega
  have hpr1lt' : pr - 1 < P.1.length := by omega
  have hprlt' : pr < P.1.length := by omega
  have hPW4 : PermWithin pl pr t t4 :=
    permWithin_trans ht3pw
      (permWithin_lswap hpmlt hpr1lt (by omega) (by omega) (by omega) (by omega))
  have hkey2 : keyAt keys (lswap P.1 P.2 (pr - 1)) P.2 = vp := by
    rw [keyAt_lswap_fst hP2lt hpr1lt']
    exact r7
  refine ⟨?_, r3, by omega, ?_, ?_⟩
  · exact permWithin_trans hPW4 (permWithin_trans r1
      (permWithin_lswap hP2lt hpr1lt' (by omega) (by omega) (by omega) (by omega)))
  · intro a ha1 ha2
    rw [hkey2, keyAt_lswap_other (by omega) (by omega)]
    exact r5 a ha1 ha2
  · intro b hb1 hb2
    rw [hkey2]
    by_cases hbe : b = pr - 1
    · subst hbe
      rw [keyAt_lswap_snd hpr1lt']
      exact r6 P.2 (le_refl _) r4
    · by_cases hbp : b = pr
      · subst hbp
        rw [keyAt_lswap_other (by omega) (by omega)]
        exact r8
      · rw [keyAt_lswap_other (by omega) hbe]
        exact r6 b (by omega) (by omega)

/-- One conditional swap of the median-of-3 selection: afterwards the
key at `v` is at most the key at `u`, other positions are untouched, and
the two sampled keys are kept or exchanged. -/
theorem condSwap_spec (keys t : List Nat) (u v lo hi : Nat)
    (hu : u < t.length) (hv : v < t.length) (hlu : lo ≤ u) (hhu : u ≤ hi) (hlv : lo ≤ v)
    (hhv : v ≤ hi) :
    (if keyAt keys t u < keyAt keys t v then lswap t u v else t).length = t.length ∧
    PermWithin lo hi t (if keyAt keys t u < keyAt keys t v then lswap t u v else t) ∧
    keyAt keys (if keyAt keys t u < keyAt keys t v then lswap t u v else t) v ≤
      keyAt keys (if keyAt keys t u < keyAt keys t v then lswap t u v else t) u ∧
    (∀ p, p ≠ u → p ≠ v →
      keyAt keys (if keyAt keys t u < keyAt keys t v then lswap t u v else t) p =
      keyAt keys t p) ∧
    ((keyAt keys (if keyAt keys t u < keyAt keys t v then lswap t u v else t) u =
        keyAt keys t u ∧
      keyAt keys (if keyAt keys t u < keyAt keys t v then lswap t u v else t) v =
        keyAt keys t v) ∨
     (keyAt keys (if keyAt keys t u < keyAt keys t v then lswap t u v else t) u =
        keyAt keys t v ∧
      keyAt keys (if keyAt keys t u < keyAt keys t v then lswap t u v else t) v =
        keyAt keys t u)) := by
  by_cases hc : keyAt keys t u < keyAt keys t v
  · rw [if_pos hc]
    refine ⟨length_lswap t u v, permWithin_lswap hu hv hlu hhu hlv hhv, ?_, ?_, Or.inr ?_⟩
    · rw [keyAt_lswap_fst hu hv, keyAt_lswap_snd hv]
      exact le_of_lt hc
    · intro p hpu hpv
      exact keyAt_lswap_other hpu hpv
    · exact ⟨keyAt_lswap_fst hu hv, keyAt_lswap_snd hv⟩
  · rw [if_neg hc]
    exact ⟨rfl, permWithin_refl lo hi t, not_lt.mp hc, fun p _ _ => rfl, Or.inl ⟨rfl, rfl⟩⟩

/-- Specification of one quicksort partition: it permutes only `[pl, pr]`
and splits it at the returned point, smaller-or-equal keys left, pivot at
the point, larger-or-equal keys right. -/
theorem npPartition_spec {keys t : List Nat} {pl pr : Nat} (hlen : pr < t.length)
    (hsize : pl + 16 ≤ pr) :
    PermWithin pl pr t (npPartition keys t pl pr).1 ∧
    pl < (npPartition keys t pl pr).2 ∧
    (npPartition keys t pl pr).2 < pr ∧
    (∀ a, pl ≤ a → a < (npPartition keys t pl pr).2 →
      keyAt keys (npPartition keys t pl pr).1 a ≤
      keyAt keys (npPartition keys t pl pr).1 (npPartition keys t pl pr).2) ∧
    (∀ b, (npPartition keys t pl pr).2 < b → b ≤ pr →
      keyAt keys (npPartition keys t pl pr).1 (npPartition keys t pl pr).2 ≤
      keyAt keys (npPartition keys t pl pr).1 b) := by
  have hpma : pl + 8 ≤ pl + (pr - pl) / 2 := by omega
  have hpmb : pl + (pr - pl) / 2 + 2 ≤ pr := by omega
  have hmlt : pl + (pr - pl) / 2 < t.length := by omega
  have hllt : pl < t.length := by omega
  simp only [npPartition]
  set pm := pl + (pr - pl) / 2 with hpmdef
  obtain ⟨l1, pw1, o1, u1, c1⟩ := condSwap_spec keys t pm pl pl pr hmlt hllt (by omega)
    (by omega) (le_refl pl) (by omega)
  set s1 := if keyAt keys t pm < keyAt keys t pl then lswap t pm pl else t with hs1
  obtain ⟨l2, pw2, o2, u2, c2⟩ := condSwap_spec keys s1 pr pm pl pr (by rw [l1]; exact hlen)
    (by rw [l1]; exact hmlt) (by omega) (le_refl pr) (by omega) (by omega)
  set s2 := if keyAt keys s1 pr < keyAt keys s1 pm then lswap s1 pr pm else s1 with hs2
  obtain ⟨l3, pw3, o3, u3, c3⟩ := condSwap_spec keys s2 pm pl pl pr
    (by rw [l2, l1]; exact hmlt) (by rw [l2, l1]; exact hllt) (by omega) (by omega)
    (le_refl pl) (by omega)
  set s3 := if keyAt keys s2 pm < keyAt keys s2 pl then lswap s2 pm pl else s2 with hs3
  have key2 : keyAt keys s2 pl ≤ keyAt keys s2 pr := by
    have hpl2 : keyAt keys s2 pl = keyAt keys s1 pl := u2 pl (by omega) (by omega)
    rcases c2 with ⟨e1, e2⟩ | ⟨e1, e2⟩
    · rw [hpl2, e1]
      rw [e1, e2] at o2
      exact le_trans o1 o2
    · rw [hpl2, e1]
      exact o1
  have h32 : keyAt keys s3 pm ≤ keyAt keys s3 pr := by
    have hpr3 : keyAt keys s3 pr = keyAt keys s2 pr := u3 pr (by omega) (by omega)
    rcases c3 with ⟨e1, e2⟩ | ⟨e1, e2⟩
    · rw [hpr3, e1]
      exact o2
    · rw [hpr3, e1]
      exact key2
  refine npPartition_core hlen hsize hpma hpmb ?_ ?_ o3 h32
  · rw [l3, l2, l1]
  · exact permWithin_trans pw1 (permWithin_trans pw2 pw3)

theorem isDesc_refl (i : Nat) : IsDesc i i := ⟨0, by simp⟩

theorem isDesc_child_left {i p : Nat} (h : IsDesc i p) : IsDesc i (2 * p) := by
  obtain ⟨k, hk⟩ := h
  refine ⟨k + 1, ?_⟩
  rw [pow_succ', ← Nat.div_div_eq_div_mul, Nat.mul_div_cancel_left p (by norm_num : (0 : Nat) < 2)]
  exact hk

theorem isDesc_child_right {i p : Nat} (h : IsDesc i p) : IsDesc i (2 * p + 1) := by
  obtain ⟨k, hk⟩ := h
  refine ⟨k + 1, ?_⟩
  rw [pow_succ', ← Nat.div_div_eq_div_mul, show (2 * p + 1) / 2 = p by omega]
  exact hk

theorem isDesc_parent {i p : Nat} (h : IsDesc i p) (hne : p ≠ i) : IsDesc i (p / 2) := by
  obtain ⟨k, hk⟩ := h
  cases k with
  | zero =>
    simp at hk
    exact absurd hk hne
  | succ k =>
    refine ⟨k, ?_⟩
    rw [← hk, pow_succ', ← Nat.div_div_eq_div_mul]

theorem isDesc_le {i p : Nat} (hi : 1 ≤ i) (h : IsDesc i p) : i ≤ p := by
  obtain ⟨k, hk⟩ := h
  have h1 : i * 2 ^ k ≤ p := by
    rw [← hk]
    exact Nat.div_mul_le_self p (2 ^ k)
  have h2 : i ≤ i * 2 ^ k := by
    calc i = i * 1 := (Nat.mul_one i).symm
    _ ≤ i * 2 ^ k := Nat.mul_le_mul_left i Nat.one_le_two_pow
  omega

theorem isDesc_proper_ge {i p : Nat} (hi : 1 ≤ i) (h : IsDesc i p) (hne : p ≠ i) :
    2 * i ≤ p := by
  obtain ⟨k, hk⟩ := h
  cases k with
  | zero =>
    simp at hk
    exact absurd hk hne
  | succ k =>
    have h1 : i * 2 ^ (k + 1) ≤ p := by
      rw [← hk]
      exact Nat.div_mul_le_self p _
    have h3 : (2 : Nat) ≤ 2 ^ (k + 1) := by
      calc (2 : Nat) = 2 ^ 1 := (pow_one 2).symm
      _ ≤ 2 ^ (k + 1) := Nat.pow_le_pow_right (by norm_num) (by omega)
    have h2 : 2 * i ≤ i * 2 ^ (k + 1) := by
      calc 2 * i = i * 2 := by ring
      _ ≤ i * 2 ^ (k + 1) := Nat.mul_le_mul_left i h3
    omega

theorem isDesc_trans {i j p : Nat} (h1 : IsDesc i j) (h2 : IsDesc j p) : IsDesc i p := by
  obtain ⟨k1, hk1⟩ := h1
  obtain ⟨k2, hk2⟩ := h2
  exact ⟨k2 + k1, by rw [pow_add, ← Nat.div_div_eq_div_mul, hk2, hk1]⟩

theorem isDesc_one : ∀ p, 1 ≤ p → IsDesc 1 p := by
  intro p
  induction p using Nat.strong_induction_on with
  | _ p ih =>
    intro hp
    by_cases h1 : p = 1
    · subst h1
      exact isDesc_refl 1
    · have h3 : IsDesc 1 (p / 2) := ih (p / 2) (by omega) (by omega)
      rcases (by omega : p = 2 * (p / 2) ∨ p = 2 * (p / 2) + 1) with he | he
      · rw [he]
        exact isDesc_child_left h3
      · rw [he]
        exact isDesc_child_right h3

theorem isDesc_comparable {a b p : Nat} (h1 : IsDesc a p) (h2 : IsDesc b p) :
    IsDesc a b ∨ IsDesc b a := by
  obtain ⟨k1, hk1⟩ := h1
  obtain ⟨k2, hk2⟩ := h2
  by_cases h : k1 ≤ k2
  · right
    refine ⟨k2 - k1, ?_⟩
    rw [← hk1, Nat.div_div_eq_div_mul, ← pow_add, show k1 + (k2 - k1) = k2 by omega]
    exact hk2
  · left
    refine ⟨k1 - k2, ?_⟩
    rw [← hk2, Nat.div_div_eq_div_mul, ← pow_add, show k2 + (k1 - k2) = k1 by omega]
    exact hk1

theorem isDesc_in_child {i p : Nat} (h : IsDesc i p) (hne : p ≠ i) :
    IsDesc (2 * i) p ∨ IsDesc (2 * i + 1) p := by
  obtain ⟨k, hk⟩ := h
  cases k with
  | zero =>
    simp at hk
    exact absurd hk hne
  | succ k =>
    have hstep : (p / 2 ^ k) / 2 = i := by
      rw [Nat.div_div_eq_div_mul, mul_comm, ← pow_succ']
      exact hk
    rcases (by omega : p / 2 ^ k = 2 * i ∨ p / 2 ^ k = 2 * i + 1) with he | he
    · exact Or.inl ⟨k, he⟩
    · exact Or.inr ⟨k, he⟩

theorem isDesc_children_disjoint {i x : Nat} (hi : 1 ≤ i) (h1 : IsDesc (2 * i) x)
    (h2 : IsDesc (2 * i + 1) x) : False := by
  rcases isDesc_comparable h1 h2 with h | h
  · by_cases he : (2 * i + 1) = 2 * i
    · omega
    · have := isDesc_proper_ge (by omega) h he
      omega
  · by_cases he : (2 * i) = 2 * i + 1
    · omega
    · have := isDesc_proper_ge (by omega) h he
      omega

theorem length_heapSet (t : List Nat) (base i x : Nat) :
    (heapSet t base i x).length = t.length :=
  List.length_set t _ x

theorem heapGet_heapSet_same {t : List Nat} {base i : Nat} (x : Nat)
    (hlt : base + i - 1 < t.length) : heapGet (heapSet t base i x) base i = x := by
  unfold heapGet heapSet
  exact getD_set_self hlt

theorem heapGet_heapSet_other {t : List Nat} {base i j : Nat} (x : Nat) (hi : 1 ≤ i) (hj : 1 ≤ j)
    (hne : i ≠ j) : heapGet (heapSet t base i x) base j = heapGet t base j := by
  unfold heapGet heapSet
  exact getD_set_ne (by omega)

theorem heapSet_getD_outside {t : List Nat} {base i q : Nat} (x : Nat)
    (hne : q ≠ base + i - 1) : (heapSet t base i x).getD q 0 = t.getD q 0 := by
  unfold heapSet
  exact getD_set_ne (fun h => hne h.symm)

theorem heapSet_self {t : List Nat} {base i : Nat} (h : base + i - 1 < t.length) :
    heapSet t base i (heapGet t base i) = t := by
  unfold heapGet heapSet
  apply eq_of_getD_eq (List.length_set t _ _)
  intro q hq
  by_cases he : base + i - 1 = q
  · subst he
    rw [getD_set_self h]
  · rw [getD_set_ne he]

/-- In a heap-below-`r` array, every subtree value is at most the root
value. -/
theorem subtree_le_root (keys t : List Nat) (base n' r : Nat) (hr : 1 ≤ r)
    (hb : ∀ c, 2 ≤ c → c ≤ n' → IsDesc r (c / 2) →
      keys.getD (heapGet t base c) 0 ≤ keys.getD (heapGet t base (c / 2)) 0) :
    ∀ p, IsDesc r p → p ≤ n' →
      keys.getD (heapGet t base p) 0 ≤ keys.getD (heapGet t base r) 0 := by
  intro p
  induction p using Nat.strong_induction_on with
  | _ p ih =>
    intro hd hp
    by_cases he : p = r
    · subst he
      exact le_refl _
    · have hge := isDesc_proper_ge hr hd he
      have hpar : IsDesc r (p / 2) := isDesc_parent hd he
      have hstep := hb p (by omega) hp hpar
      have hchain := ih (p / 2) (by omega) hpar (by omega)
      exact le_trans hstep hchain

/-- Full specification of the sift-down loop on the subtree rooted at the
hole `i`: it only moves values inside that subtree, is (as a multiset)
exactly "drop `tmp` into the hole", restores the heap order below `i`,
and every subtree slot afterwards holds `tmp` or some old subtree
slot's value. -/
theorem siftDown_spec (keys : List Nat) (base n' : Nat) :
    ∀ (fuel : Nat) (t : List Nat) (i tmp : Nat),
      1 ≤ i → i ≤ n' → base + n' ≤ t.length → n' < i * 2 ^ fuel →
      (∀ c, 2 ≤ c → c ≤ n' → IsDesc i (c / 2) → c / 2 ≠ i →
        keys.getD (heapGet t base c) 0 ≤ keys.getD (heapGet t base (c / 2)) 0) →
      (∀ q, (∀ p, 1 ≤ p → p ≤ n' → IsDesc i p → q ≠ base + p - 1) →
        (siftDown keys base n' tmp fuel t i (i * 2)).getD q 0 = t.getD q 0) ∧
      (siftDown keys base n' tmp fuel t i (i * 2)).length = t.length ∧
      List.Perm (siftDown keys base n' tmp fuel t i (i * 2)) (heapSet t base i tmp) ∧
      (∀ c, 2 ≤ c → c ≤ n' → IsDesc i (c / 2) →
        keys.getD (heapGet (siftDown keys base n' tmp fuel t i (i * 2)) base c) 0 ≤
        keys.getD (heapGet (siftDown keys base n' tmp fuel t i (i * 2)) base (c / 2)) 0) ∧
      (∀ p, 1 ≤ p → p ≤ n' → IsDesc i p →
        (∃ p0, 1 ≤ p0 ∧ p0 ≤ n' ∧ IsDesc i p0 ∧
          heapGet (siftDown keys base n' tmp fuel t i (i * 2)) base p = heapGet t base p0) ∨
        heapGet (siftDown keys base n' tmp fuel t i (i * 2)) base p = tmp) := by
  intro fuel
  induction fuel with
  | zero =>
    intro t i tmp h1 h2 hblen hfuel hbelow
    simp only [pow_zero, Nat.mul_one] at hfuel
    exact absurd h2 (by omega)
  | succ fuel ih =>
    intro t i tmp h1 h2 hblen hfuel hbelow
    by_cases houter : i * 2 ≤ n'
    · have main : ∀ j1 : Nat, j1 = i * 2 ∨ j1 = i * 2 + 1 → j1 ≤ n' →
          (∀ c, (c = i * 2 ∨ c = i * 2 + 1) → c ≤ n' →
            keys.getD (heapGet t base c) 0 ≤ keys.getD (heapGet t base j1) 0) →
          (∀ q, (∀ p, 1 ≤ p → p ≤ n' → IsDesc i p → q ≠ base + p - 1) →
            (if keys.getD tmp 0 < keys.getD (heapGet t base j1) 0 then
              siftDown keys base n' tmp fuel (heapSet t base i (heapGet t base j1)) j1 (j1 * 2)
            else heapSet t base i tmp).getD q 0 = t.getD q 0) ∧
          (if keys.getD tmp 0 < keys.getD (heapGet t base j1) 0 then
            siftDown keys base n' tmp fuel (heapSet t base i (heapGet t base j1)) j1 (j1 * 2)
          else heapSet t base i tmp).length = t.length ∧
          List.Perm
            (if keys.getD tmp 0 < keys.getD (heapGet t base j1) 0 then
              siftDown keys base n' tmp fuel (heapSet t base i (heapGet t base j1)) j1 (j1 * 2)
            else heapSet t base i tmp) (heapSet t base i tmp) ∧
          (∀ c, 2 ≤ c → c ≤ n' → IsDesc i (c / 2) →
            keys.getD (heapGet
              (if keys.getD tmp 0 < keys.getD (heapGet t base j1) 0 then
                siftDown keys base n' tmp fuel (heapSet t base i (heapGet t base j1)) j1 (j1 * 2)
              else heapSet t base i tmp) base c) 0 ≤
            keys.getD (heapGet
              (if keys.getD tmp 0 < keys.getD (heapGet t base j1) 0 then
                siftDown keys base n' tmp fuel (heapSet t base i (heapGet t base j1)) j1 (j1 * 2)
              else heapSet t base i tmp) base (c / 2)) 0) ∧
          (∀ p, 1 ≤ p → p ≤ n' → IsDesc i p →
            (∃ p0, 1 ≤ p0 ∧ p0 ≤ n' ∧ IsDesc i p0 ∧
              heapGet
                (if keys.getD tmp 0 < keys.getD (heapGet t base j1) 0 then
                  siftDown keys base n' tmp fuel (heapSet t base i (heapGet t base j1)) j1
                    (j1 * 2)
                else heapSet t base i tmp) base p = heapGet t base p0) ∨
            heapGet
              (if keys.getD tmp 0 < keys.getD (heapGet t base j1) 0 then
                siftDown keys base n' tmp fuel (heapSet t base i (heapGet t base j1)) j1 (j1 * 2)
              else heapSet t base i tmp) base p = tmp) := by
        intro j1 hj1or hj1n hchmax
        have hij1 : IsDesc i j1 := by
          rcases hj1or with he | he
          · rw [he, mul_comm]
            exact isDesc_child_left (isDesc_refl i)
          · rw [he, mul_comm]
            exact isDesc_child_right (isDesc_refl i)
        have hj1gt : i < j1 := by omega
        by_cases hdesc : keys.getD tmp 0 < keys.getD (heapGet t base j1) 0
        · rw [if_pos hdesc]
          have hlen1 : (heapSet t base i (heapGet t base j1)).length = t.length :=
            length_heapSet t base i _
          have hb1 : ∀ c, 2 ≤ c → c ≤ n' → IsDesc j1 (c / 2) → c / 2 ≠ j1 →
              keys.getD (heapGet (heapSet t base i (heapGet t base j1)) base c) 0 ≤
              keys.getD (heapGet (heapSet t base i (heapGet t base j1)) base (c / 2)) 0 := by
            intro c hc1 hc2 hcd _
            have hc2i : j1 ≤ c / 2 := isDesc_le (by omega) hcd
            have e1 : heapGet (heapSet t base i (heapGet t base j1)) base c = heapGet t base c :=
              heapGet_heapSet_other _ h1 (by omega) (by omega)
            have e2 : heapGet (heapSet t base i (heapGet t base j1)) base (c / 2) =
                heapGet t base (c / 2) :=
              heapGet_heapSet_other _ h1 (by omega) (by omega)
            rw [e1, e2]
            exact hbelow c hc1 hc2 (isDesc_trans hij1 hcd) (by omega)
          have hfuel1 : n' < j1 * 2 ^ fuel := by
            have h20 : i * 2 ^ (fuel + 1) = (2 * i) * 2 ^ fuel := by ring
            have h21 : (2 * i) * 2 ^ fuel ≤ j1 * 2 ^ fuel :=
              Nat.mul_le_mul_right _ (by omega)
            omega
          obtain ⟨u0, l0, p0, b0, o0⟩ := ih (heapSet t base i (heapGet t base j1)) j1 tmp
            (by omega) hj1n (by rw [hlen1]; exact hblen) hfuel1 hb1
          have hTi : heapGet (siftDown keys base n' tmp fuel
              (heapSet t base i (heapGet t base j1)) j1 (j1 * 2)) base i =
              heapGet t base j1 := by
            have hq1 : ∀ p, 1 ≤ p → p ≤ n' → IsDesc j1 p → base + i - 1 ≠ base + p - 1 := by
              intro p hp1 hp2 hpd
              have := isDesc_le (by omega) hpd
              omega
            show (siftDown keys base n' tmp fuel (heapSet t base i (heapGet t base j1)) j1
              (j1 * 2)).getD (base + i - 1) 0 = _
            rw [u0 _ hq1]
            exact heapGet_heapSet_same _ (by omega)
          have huntouched : ∀ x, 1 ≤ x → ¬ IsDesc j1 x → x ≠ i →
              heapGet (siftDown keys base n' tmp fuel
                (heapSet t base i (heapGet t base j1)) j1 (j1 * 2)) base x =
              heapGet t base x := by
            intro x hx hnd hxi
            have hq1 : ∀ p, 1 ≤ p → p ≤ n' → IsDesc j1 p → base + x - 1 ≠ base + p - 1 := by
              intro p hp1 hp2 hpd heq
              have hxp : x = p := by omega
              exact hnd (hxp ▸ hpd)
            show (siftDown keys base n' tmp fuel (heapSet t base i (heapGet t base j1)) j1
              (j1 * 2)).getD (base + x - 1) 0 = _
            rw [u0 _ hq1]
            exact heapGet_heapSet_other _ h1 hx (fun he => hxi he.symm)
          refine ⟨?_, ?_, ?_, ?_, ?_⟩
          · intro q hq
            have hq1 : ∀ p, 1 ≤ p → p ≤ n' → IsDesc j1 p → q ≠ base + p - 1 := by
              intro p hp1 hp2 hpd
              exact hq p hp1 hp2 (isDesc_trans hij1 hpd)
            rw [u0 q hq1]
            exact heapSet_getD_outside _ (hq i h1 h2 (isDesc_refl i))
          · rw [l0, hlen1]
          · have hp1lt : base + i - 1 < t.length := by omega
            have hp2lt : base + j1 - 1 < t.length := by omega
            have hpss := perm_set_set t (base + i - 1) (base + j1 - 1) tmp hp1lt hp2lt
              (by omega)
            exact p0.trans hpss
          · intro c hc2 hcn hcd
            by_cases hci : c / 2 = i
            · have hcval : c = 2 * i ∨ c = 2 * i + 1 := by omega
              rw [hci, hTi]
              by_cases hcj : c = j1
              · rw [hcj]
                rcases o0 j1 (by omega) hj1n (isDesc_refl j1) with ⟨p0', h01, h02, h0d, h0e⟩ | he
                · rw [h0e]
                  have e1 : heapGet (heapSet t base i (heapGet t base j1)) base p0' =
                      heapGet t base p0' :=
                    heapGet_heapSet_other _ h1 h01
                      (by have := isDesc_le (by omega) h0d; omega)
                  rw [e1]
                  exact subtree_le_root keys t base n' j1 (by omega)
                    (fun c' hc1' hc2' hcd' => hbelow c' hc1' hc2' (isDesc_trans hij1 hcd')
                      (by have := isDesc_le (by omega) hcd'; omega))
                    p0' h0d h02
                · rw [he]
                  exact le_of_lt hdesc
              · have hnd : ¬ IsDesc j1 c := by
                  intro hdc
                  by_cases hesame : c = j1
                  · exact hcj hesame
                  · have := isDesc_proper_ge (by omega) hdc hesame
                    omega
                rw [huntouched c (by omega) hnd (by omega)]
                exact hchmax c (by omega) hcn
            · by_cases hcdj : IsDesc j1 (c / 2)
              · exact b0 c hc2 hcn hcdj
              · have hige : 2 * i ≤ c / 2 := isDesc_proper_ge h1 hcd hci
                have hcdne : ¬ IsDesc j1 c := by
                  intro hdc
                  by_cases hcj1 : c = j1
                  · subst hcj1
                    exact hci (by omega)
                  · exact hcdj (isDesc_parent hdc hcj1)
                rw [huntouched c (by omega) hcdne (by omega),
                  huntouched (c / 2) (by omega) hcdj (by omega)]
                exact hbelow c hc2 hcn hcd hci
          · intro p hp1 hp2 hpd
            by_cases hpj : IsDesc j1 p
            · rcases o0 p hp1 hp2 hpj with ⟨p0', h01, h02, h0d, h0e⟩ | he
              · left
                refine ⟨p0', h01, h02, isDesc_trans hij1 h0d, ?_⟩
                rw [h0e]
                exact heapGet_heapSet_other _ h1 h01
                  (by have := isDesc_le (by omega) h0d; omega)
              · right
                exact he
            · by_cases hpi : p = i
              · subst hpi
                left
                exact ⟨j1, by omega, hj1n, hij1, hTi⟩
              · left
                exact ⟨p, hp1, hp2, hpd, huntouched p hp1 hpj hpi⟩
        · rw [if_neg hdesc]
          refine ⟨?_, length_heapSet t base i tmp, List.Perm.refl _, ?_, ?_⟩
          · intro q hq
            exact heapSet_getD_outside _ (hq i h1 h2 (isDesc_refl i))
          · intro c hc2 hcn hcd
            by_cases hci : c / 2 = i
            · have hcval : c = 2 * i ∨ c = 2 * i + 1 := by omega
              rw [hci]
              have e1 : heapGet (heapSet t base i tmp) base i = tmp :=
                heapGet_heapSet_same _ (by omega)
              have e2 : heapGet (heapSet t base i tmp) base c = heapGet t base c :=
                heapGet_heapSet_other _ h1 (by omega) (by omega)
              rw [e1, e2]
              exact le_trans (hchmax c (by omega) hcn) (not_lt.mp hdesc)
            · have hige : 2 * i ≤ c / 2 := isDesc_proper_ge h1 hcd hci
              have e1 : heapGet (heapSet t base i tmp) base c = heapGet t base c :=
                heapGet_heapSet_other _ h1 (by omega) (by omega)
              have e2 : heapGet (heapSet t base i tmp) base (c / 2) = heapGet t base (c / 2) :=
                heapGet_heapSet_other _ h1 (by omega) (by omega)
              rw [e1, e2]
              exact hbelow c hc2 hcn hcd hci
          · intro p hp1 hp2 hpd
            by_cases hpi : p = i
            · subst hpi
              right
              exact heapGet_heapSet_same _ (by omega)
            · left
              exact ⟨p, hp1, hp2, hpd,
                heapGet_heapSet_other _ h1 hp1 (fun he => hpi he.symm)⟩
      by_cases hj1c : i * 2 < n' ∧
          keys.getD (heapGet t base (i * 2)) 0 < keys.getD (heapGet t base (i * 2 + 1)) 0
      · simp only [siftDown, if_pos houter, if_pos hj1c]
        refine main (i * 2 + 1) (Or.inr rfl) (by omega) ?_
        intro c hc hcn
        rcases hc with he | he
        · rw [he]
          exact le_of_lt hj1c.2
        · rw [he]
      · simp only [siftDown, if_pos houter, if_neg hj1c]
        refine main (i * 2) (Or.inl rfl) houter ?_
        intro c hc hcn
        rcases hc with he | he
        · rw [he]
        · rw [he]
          by_cases hlt : i * 2 < n'
          · rcases not_and_or.mp hj1c with hx | hx
            · exact absurd hlt hx
            · exact not_lt.mp hx
          · omega
    · simp only [siftDown, if_neg houter]
      refine ⟨?_, length_heapSet t base i tmp, List.Perm.refl _, ?_, ?_⟩
      · intro q hq
        exact heapSet_getD_outside _ (hq i h1 h2 (isDesc_refl i))
      · intro c hc2 hcn hcd
        by_cases hci : c / 2 = i
        · exact absurd hcn (by omega)
        · have hige : 2 * i ≤ c / 2 := isDesc_proper_ge h1 hcd hci
          exact absurd hcn (by omega)
      · intro p hp1 hp2 hpd
        by_cases hpi : p = i
        · subst hpi
          right
          exact heapGet_heapSet_same _ (by omega)
        · left
          exact ⟨p, hp1, hp2, hpd,
            heapGet_heapSet_other _ h1 hp1 (fun he => hpi he.symm)⟩

/-- The build phase turns the whole window `[1, n]` into a max-heap,
permuting only the window. -/
theorem heapBuild_spec (keys : List Nat) (base n : Nat) :
    ∀ (l : Nat) (t : List Nat), l ≤ n / 2 → base + n ≤ t.length →
      (∀ c, 2 ≤ c → c ≤ n → l < c / 2 →
        keys.getD (heapGet t base c) 0 ≤ keys.getD (heapGet t base (c / 2)) 0) →
      (∀ q, q < base ∨ base + n ≤ q →
        (heapBuild keys base n l t).getD q 0 = t.getD q 0) ∧
      (heapBuild keys base n l t).length = t.length ∧
      List.Perm (heapBuild keys base n l t) t ∧
      (∀ c, 2 ≤ c → c ≤ n →
        keys.getD (heapGet (heapBuild keys base n l t) base c) 0 ≤
        keys.getD (heapGet (heapBuild keys base n l t) base (c / 2)) 0) := by
  intro l
  induction l with
  | zero =>
    intro t _ hblen hb
    refine ⟨fun q _ => rfl, rfl, List.Perm.refl t, ?_⟩
    intro c hc2 hcn
    exact hb c hc2 hcn (by omega)
  | succ l ihl =>
    intro t hl2 hblen hb
    have hin : l + 1 ≤ n := by omega
    have hfuel : n < (l + 1) * 2 ^ (n + 2) := by
      have h1 : n < 2 ^ n := Nat.lt_two_pow n
      have h2 : (2 : Nat) ^ n ≤ 2 ^ (n + 2) := Nat.pow_le_pow_right (by norm_num) (by omega)
      have h3 : (2 : Nat) ^ (n + 2) ≤ (l + 1) * 2 ^ (n + 2) := by
        calc (2 : Nat) ^ (n + 2) = 1 * 2 ^ (n + 2) := (Nat.one_mul _).symm
        _ ≤ (l + 1) * 2 ^ (n + 2) := Nat.mul_le_mul_right _ (by omega)
      omega
    have hbelow : ∀ c, 2 ≤ c → c ≤ n → IsDesc (l + 1) (c / 2) → c / 2 ≠ l + 1 →
        keys.getD (heapGet t base c) 0 ≤ keys.getD (heapGet t base (c / 2)) 0 := by
      intro c hc2 hcn hcd hcne
      have := isDesc_le (by omega) hcd
      exact hb c hc2 hcn (by omega)
    obtain ⟨u0, l0, p0, b0, o0⟩ := siftDown_spec keys base n (n + 2) t (l + 1)
      (heapGet t base (l + 1)) (by omega) hin hblen hfuel hbelow
    have hb2 : ∀ c, 2 ≤ c → c ≤ n → l < c / 2 →
        keys.getD (heapGet (siftDown keys base n (heapGet t base (l + 1)) (n + 2) t (l + 1)
          ((l + 1) * 2)) base c) 0 ≤
        keys.getD (heapGet (siftDown keys base n (heapGet t base (l + 1)) (n + 2) t (l + 1)
          ((l + 1) * 2)) base (c / 2)) 0 := by
      intro c hc2 hcn hcl
      by_cases hcd : IsDesc (l + 1) (c / 2)
      · exact b0 c hc2 hcn hcd
      · have hc2ne : c / 2 ≠ l + 1 := fun he => hcd (he ▸ isDesc_refl (l + 1))
        have hcne : ¬ IsDesc (l + 1) c := by
          intro hdc
          by_cases hce : c = l + 1
          · omega
          · exact hcd (isDesc_parent hdc hce)
        have e1 : (siftDown keys base n (heapGet t base (l + 1)) (n + 2) t (l + 1)
            ((l + 1) * 2)).getD (base + c - 1) 0 = t.getD (base + c - 1) 0 := by
          apply u0
          intro p hp1 hp2 hpd heq
          have hcp : c = p := by omega
          exact hcne (hcp ▸ hpd)
        have e2 : (siftDown keys base n (heapGet t base (l + 1)) (n + 2) t (l + 1)
            ((l + 1) * 2)).getD (base + c / 2 - 1) 0 = t.getD (base + c / 2 - 1) 0 := by
          apply u0
          intro p hp1 hp2 hpd heq
          have hcp : c / 2 = p := by omega
          exact hcd (hcp ▸ hpd)
        show keys.getD ((siftDown keys base n (heapGet t base (l + 1)) (n + 2) t (l + 1)
          ((l + 1) * 2)).getD (base + c - 1) 0) 0 ≤
          keys.getD ((siftDown keys base n (heapGet t base (l + 1)) (n + 2) t (l + 1)
            ((l + 1) * 2)).getD (base + c / 2 - 1) 0) 0
        rw [e1, e2]
        exact hb c hc2 hcn (by omega)
    obtain ⟨u1, l1, p1, b1⟩ := ihl (siftDown keys base n (heapGet t base (l + 1)) (n + 2) t
      (l + 1) ((l + 1) * 2)) (by omega) (by rw [l0]; exact hblen) hb2
    have hperm0 : List.Perm (siftDown keys base n (heapGet t base (l + 1)) (n + 2) t (l + 1)
        ((l + 1) * 2)) t := by
      have := p0
      rwa [heapSet_self (by omega)] at this
    refine ⟨?_, ?_, ?_, ?_⟩
    · intro q hq
      rw [heapBuild]
      rw [u1 q hq]
      apply u0
      intro p hp1 hp2 _
      omega
    · rw [heapBuild, l1, l0]
    · rw [heapBuild]
      exact p1.trans hperm0
    · intro c hc2 hcn
      rw [heapBuild]
      exact b1 c hc2 hcn

/-- The extract phase of heapsort: starting from a heap on `[1, m]` with
a sorted suffix `[m+1, n]` dominating it, it sorts the whole window,
permuting only the window. -/
theorem heapExtract_spec (keys : List Nat) (base n : Nat) :
    ∀ (m : Nat) (t : List Nat), m ≤ n → base + n ≤ t.length →
      (∀ c, 2 ≤ c → c ≤ m →
        keys.getD (heapGet t base c) 0 ≤ keys.getD (heapGet t base (c / 2)) 0) →
      (∀ p q, m + 1 ≤ p → p < q → q ≤ n →
        keys.getD (heapGet t base p) 0 ≤ keys.getD (heapGet t base q) 0) →
      (∀ p q, 1 ≤ p → p ≤ m → m + 1 ≤ q → q ≤ n →
        keys.getD (heapGet t base p) 0 ≤ keys.getD (heapGet t base q) 0) →
      (∀ q, q < base ∨ base + n ≤ q →
        (heapExtract keys base m t).getD q 0 = t.getD q 0) ∧
      (heapExtract keys base m t).length = t.length ∧
      List.Perm (heapExtract keys base m t) t ∧
      (∀ p q, 1 ≤ p → p < q → q ≤ n →
        keys.getD (heapGet (heapExtract keys base m t) base p) 0 ≤
        keys.getD (heapGet (heapExtract keys base m t) base q) 0) := by
  intro m
  induction m using Nat.strong_induction_on with
  | _ m ihm =>
    intro t hmn hblen hheap hs hb
    match m, ihm, hmn, hheap, hs, hb with
    | 0, _, hmn, hheap, hs, hb =>
      refine ⟨fun q _ => rfl, rfl, List.Perm.refl t, ?_⟩
      intro p q hp1 hpq hqn
      exact hs p q (by omega) hpq hqn
    | 1, _, hmn, hheap, hs, hb =>
      refine ⟨fun q _ => rfl, rfl, List.Perm.refl t, ?_⟩
      intro p q hp1 hpq hqn
      by_cases hp : p = 1
      · subst hp
        exact hb 1 q (le_refl 1) (le_refl 1) (by omega) hqn
      · exact hs p q (by omega) hpq hqn
    | m' + 2, ihm, hmn, hheap, hs, hb =>
      have hm2 : 2 ≤ m' + 2 := by omega
      have hrootmax : ∀ x, 1 ≤ x → x ≤ m' + 2 →
          keys.getD (heapGet t base x) 0 ≤ keys.getD (heapGet t base 1) 0 := by
        intro x hx1 hx2
        exact subtree_le_root keys t base (m' + 2) 1 (le_refl 1)
          (fun c hc1 hc2 _ => hheap c hc1 hc2) x (isDesc_one x hx1) hx2
      have hl1 : (heapSet t base (m' + 2) (heapGet t base 1)).length = t.length :=
        length_heapSet t base _ _
      have hfuel : m' + 1 < 1 * 2 ^ (m' + 4) := by
        have h1 : m' + 1 < 2 ^ (m' + 1) := Nat.lt_two_pow (m' + 1)
        have h2 : (2 : Nat) ^ (m' + 1) ≤ 2 ^ (m' + 4) :=
          Nat.pow_le_pow_right (by norm_num) (by omega)
        omega
      have hbelow1 : ∀ c, 2 ≤ c → c ≤ m' + 1 → IsDesc 1 (c / 2) → c / 2 ≠ 1 →
          keys.getD (heapGet (heapSet t base (m' + 2) (heapGet t base 1)) base c) 0 ≤
          keys.getD (heapGet (heapSet t base (m' + 2) (heapGet t base 1)) base (c / 2)) 0 := by
        intro c hc1 hc2 _ _
        have e1 : heapGet (heapSet t base (m' + 2) (heapGet t base 1)) base c =
            heapGet t base c :=
          heapGet_heapSet_other _ (by omega) (by omega) (by omega)
        have e2 : heapGet (heapSet t base (m' + 2) (heapGet t base 1)) base (c / 2) =
            heapGet t base (c / 2) :=
          heapGet_heapSet_other _ (by omega) (by omega) (by omega)
        rw [e1, e2]
        exact hheap c hc1 (by omega)
      obtain ⟨u0, l0, p0, b0, o0⟩ := siftDown_spec keys base (m' + 1) (m' + 4)
        (heapSet t base (m' + 2) (heapGet t base 1)) 1 (heapGet t base (m' + 2))
        (le_refl 1) (by omega) (by omega) hfuel hbelow1
      -- value of t2 at positions ≥ m' + 2 and the new invariants
      have ht2hi : ∀ x, m' + 2 ≤ x →
          heapGet (siftDown keys base (m' + 1) (heapGet t base (m' + 2)) (m' + 4)
            (heapSet t base (m' + 2) (heapGet t base 1)) 1 2) base x =
          heapGet (heapSet t base (m' + 2) (heapGet t base 1)) base x := by
        intro x hx
        show (siftDown keys base (m' + 1) (heapGet t base (m' + 2)) (m' + 4)
          (heapSet t base (m' + 2) (heapGet t base 1)) 1 2).getD (base + x - 1) 0 = _
        have h12 : (1 : Nat) * 2 = 2 := by norm_num
        rw [← h12]
        apply u0
        intro p hp1 hp2 _
        omega
      have ht2m : heapGet (siftDown keys base (m' + 1) (heapGet t base (m' + 2)) (m' + 4)
          (heapSet t base (m' + 2) (heapGet t base 1)) 1 2) base (m' + 2) =
          heapGet t base 1 := by
        rw [ht2hi (m' + 2) (le_refl _)]
        exact heapGet_heapSet_same _ (by omega)
      have ht2hi' : ∀ x, m' + 3 ≤ x → x ≤ n →
          heapGet (siftDown keys base (m' + 1) (heapGet t base (m' + 2)) (m' + 4)
            (heapSet t base (m' + 2) (heapGet t base 1)) 1 2) base x = heapGet t base x := by
        intro x hx hxn
        rw [ht2hi x (by omega)]
        exact heapGet_heapSet_other _ (by omega) (by omega) (by omega)
      have ho0' : ∀ p, 1 ≤ p → p ≤ m' + 1 →
          (∃ p0, 1 ≤ p0 ∧ p0 ≤ m' + 1 ∧
            heapGet (siftDown keys base (m' + 1) (heapGet t base (m' + 2)) (m' + 4)
              (heapSet t base (m' + 2) (heapGet t base 1)) 1 2) base p =
            heapGet t base p0) ∨
          heapGet (siftDown keys base (m' + 1) (heapGet t base (m' + 2)) (m' + 4)
            (heapSet t base (m' + 2) (heapGet t base 1)) 1 2) base p =
          heapGet t base (m' + 2) := by
        intro p hp1 hp2
        have h12 : (1 : Nat) * 2 = 2 := by norm_num
        rcases (h12 ▸ o0 p hp1 hp2 (isDesc_one p hp1)) with ⟨pp, hh1, hh2, _, hh4⟩ | he
        · left
          refine ⟨pp, hh1, hh2, ?_⟩
          rw [hh4]
          exact heapGet_heapSet_other _ (by omega) (by omega) (by omega)
        · right
          exact he
      obtain ⟨u1, l1, p1, s1⟩ := ihm (m' + 1) (by omega)
        (siftDown keys base (m' + 1) (heapGet t base (m' + 2)) (m' + 4)
          (heapSet t base (m' + 2) (heapGet t base 1)) 1 2)
        (by omega) (by rw [l0, hl1]; exact hblen)
        (fun c hc1 hc2 => by
          have h12 : (1 : Nat) * 2 = 2 := by norm_num
          exact h12 ▸ b0 c hc1 hc2 (isDesc_one (c / 2) (by omega)))
        (by
          intro p q hp hpq hqn
          by_cases hpm : p = m' + 2
          · subst hpm
            rw [ht2m, ht2hi' q (by omega) hqn]
            exact hb 1 q (le_refl 1) (by omega) (by omega) hqn
          · rw [ht2hi' p (by omega) (by omega), ht2hi' q (by omega) hqn]
            exact hs p q (by omega) hpq hqn)
        (by
          intro p q hp1 hp2 hq1 hq2
          rcases ho0' p hp1 hp2 with ⟨pp, hh1, hh2, hh4⟩ | he
          · rw [hh4]
            by_cases hqm : q = m' + 2
            · subst hqm
              rw [ht2m]
              exact hrootmax pp hh1 (by omega)
            · rw [ht2hi' q (by omega) hq2]
              exact hb pp q hh1 (by omega) (by omega) hq2
          · rw [he]
            by_cases hqm : q = m' + 2
            · subst hqm
              rw [ht2m]
              exact hrootmax (m' + 2) (by omega) (le_refl _)
            · rw [ht2hi' q (by omega) hq2]
              exact hb (m' + 2) q (by omega) (le_refl _) (by omega) hq2)
      have hperm2 : List.Perm (siftDown keys base (m' + 1) (heapGet t base (m' + 2)) (m' + 4)
          (heapSet t base (m' + 2) (heapGet t base 1)) 1 2) t := by
        have h12 : (1 : Nat) * 2 = 2 := by norm_num
        have hp' := h12 ▸ p0
        have hss := perm_set_set t (base + (m' + 2) - 1) (base + 1 - 1)
          (heapGet t base (m' + 2)) (by omega) (by omega) (by omega)
        have hfin : heapSet t base (m' + 2) (heapGet t base (m' + 2)) = t :=
          heapSet_self (by omega)
        have hss2 : List.Perm
            (heapSet (heapSet t base (m' + 2) (heapGet t base 1)) base 1
              (heapGet t base (m' + 2)))
            (heapSet t base (m' + 2) (heapGet t base (m' + 2))) := hss
        rw [hfin] at hss2
        exact hp'.trans hss2
      refine ⟨?_, ?_, ?_, ?_⟩
      · intro q hq
        rw [heapExtract]
        rw [u1 q hq]
        have h12 : (1 : Nat) * 2 = 2 := by norm_num
        rw [show (2 : Nat) = 1 * 2 by norm_num]
        rw [u0 q (by intro p hp1 hp2 _; omega)]
        exact heapSet_getD_outside _ (by omega)
      · rw [heapExtract, l1, l0, hl1]
      · rw [heapExtract]
        exact p1.trans hperm2
      · intro p q hp1 hpq hqn
        rw [heapExtract]
        exact s1 p q hp1 hpq hqn

/-- Heapsort on the window `[pl, pr]`: permutes only the window and leaves
its keys sorted ascending. -/
theorem aheapsortRange_spec {keys t : List Nat} {pl pr : Nat} (hlh : pl ≤ pr)
    (hpr : pr < t.length) :
    PermWithin pl pr t (aheapsortRange keys t pl pr) ∧
    (∀ p q, pl ≤ p → p < q → q ≤ pr →
      keyAt keys (aheapsortRange keys t pl pr) p ≤ keyAt keys (aheapsortRange keys t pl pr) q) := by
  have hrn : aheapsortRange keys t pl pr =
      heapExtract keys pl (pr + 1 - pl)
        (heapBuild keys pl (pr + 1 - pl) ((pr + 1 - pl) / 2) t) := rfl
  obtain ⟨bu, bl, bp, bh⟩ := heapBuild_spec keys pl (pr + 1 - pl) ((pr + 1 - pl) / 2) t
    (le_refl _) (by omega)
    (fun c hc1 hc2 hc3 => absurd hc3 (by
      have h2 : c / 2 ≤ (pr + 1 - pl) / 2 := Nat.div_le_div_right hc2
      omega))
  obtain ⟨eu, el, ep, es⟩ := heapExtract_spec keys pl (pr + 1 - pl) (pr + 1 - pl)
    (heapBuild keys pl (pr + 1 - pl) ((pr + 1 - pl) / 2) t)
    (le_refl _) (by rw [bl]; omega) bh
    (fun p q hp hpq hqn => absurd hqn (by omega))
    (fun p q _ hp hq hqn => absurd hqn (by omega))
  rw [hrn]
  refine ⟨⟨el.trans bl, ep.trans bp, ?_⟩, ?_⟩
  · intro q hq
    rw [eu q (by omega), bu q (by omega)]
  · intro i j hi hij hj
    have h := es (i - pl + 1) (j - pl + 1) (by omega) (by omega) (by omega)
    simp only [heapGet] at h
    rw [show pl + (i - pl + 1) - 1 = i from by omega,
        show pl + (j - pl + 1) - 1 = j from by omega] at h
    exact h

theorem Covered_swap {a b : Nat × Nat} {R : List (Nat × Nat)} {p q : Nat}
    (h : Covered (a :: b :: R) p q) : Covered (b :: a :: R) p q := by
  obtain ⟨r, hr, h1, h2⟩ := h
  refine ⟨r, ?_, h1, h2⟩
  rcases List.mem_cons.mp hr with he | hm
  · exact List.mem_cons_of_mem _ (by rw [he]; exact List.mem_cons_self _ _)
  · rcases List.mem_cons.mp hm with he | hm'
    · rw [he]; exact List.mem_cons_self _ _
    · exact List.mem_cons_of_mem _ (List.mem_cons_of_mem _ hm')

theorem OKI_swap {keys t : List Nat} {a b : Nat × Nat} {R : List (Nat × Nat)}
    (h : OKI keys t (a :: b :: R)) : OKI keys t (b :: a :: R) := by
  intro p q hpq hql hnc
  exact h p q hpq hql (fun hc => hnc (Covered_swap hc))

theorem wf_swap {t : List Nat} {a b : Nat × Nat} {R : List (Nat × Nat)}
    (h : WfRegions t (a :: b :: R)) : WfRegions t (b :: a :: R) := by
  obtain ⟨hb, hp⟩ := h
  have h1 := List.pairwise_cons.mp hp
  have h2 := List.pairwise_cons.mp h1.2
  refine ⟨?_, ?_⟩
  · intro r hr
    apply hb
    rcases List.mem_cons.mp hr with he | hm
    · exact List.mem_cons_of_mem _ (by rw [he]; exact List.mem_cons_self _ _)
    · rcases List.mem_cons.mp hm with he | hm'
      · rw [he]; exact List.mem_cons_self _ _
      · exact List.mem_cons_of_mem _ (List.mem_cons_of_mem _ hm')
  · refine List.Pairwise.cons ?_ (List.Pairwise.cons ?_ h2.2)
    · intro x hx
      rcases List.mem_cons.mp hx with he | hm
      · rw [he]
        exact disj_symm (h1.1 b (List.mem_cons_self _ _))
      · exact h2.1 x hm
    · intro x hx
      exact h1.1 x (List.mem_cons_of_mem _ hx)

theorem Rmeasure_swap (a b : Nat × Nat) (R : List (Nat × Nat)) :
    Rmeasure (a :: b :: R) = Rmeasure (b :: a :: R) := by
  obtain ⟨a1, a2⟩ := a
  obtain ⟨b1, b2⟩ := b
  simp only [Rmeasure_cons]
  omega

/-- The introsort driver loop: given enough fuel, a well-formed pending
stack and the cross-region order invariant, the result is a permutation of
the input that is globally sorted by key. -/
theorem npQsortLoop_spec (keys : List Nat) :
    ∀ (fuel : Nat) (t : List Nat) (stack : List (Nat × Nat)) (pl pr : Nat) (dl : Int),
      Rmeasure ((pl, pr) :: stack) ≤ fuel →
      WfRegions t ((pl, pr) :: stack) →
      OKI keys t ((pl, pr) :: stack) →
      List.Perm (npQsortLoop keys fuel t stack pl pr dl) t ∧
      (npQsortLoop keys fuel t stack pl pr dl).length = t.length ∧
      (∀ p q, p < q → q < t.length →
        keyAt keys (npQsortLoop keys fuel t stack pl pr dl) p ≤
        keyAt keys (npQsortLoop keys fuel t stack pl pr dl) q) := by
  intro fuel
  induction fuel with
  | zero =>
    intro t stack pl pr dl hfuel hWf _
    exfalso
    have hhd := hWf.1 (pl, pr) (List.mem_cons_self _ _)
    have h1 : pl ≤ pr := hhd.1
    rw [Rmeasure_cons] at hfuel
    omega
  | succ fuel ih =>
    intro t stack pl pr dl hfuel hWf hOK
    have hhd := hWf.1 (pl, pr) (List.mem_cons_self _ _)
    have hlh : pl ≤ pr := hhd.1
    have hpr : pr < t.length := hhd.2
    have hpw := List.pairwise_cons.mp hWf.2
    rw [Rmeasure_cons] at hfuel
    by_cases hbig : 15 < pr - pl
    · by_cases hdl : dl < 0
      · obtain ⟨hPW, hsorted⟩ := @aheapsortRange_spec keys t pl pr hlh hpr
        have hOK1 : OKI keys (aheapsortRange keys t pl pr) ((pl, pr) :: stack) :=
          OKI_of_permWithin (List.mem_cons_self _ _) hWf.2 hpr hlh hOK hPW
        have hOK2 : OKI keys (aheapsortRange keys t pl pr) stack :=
          OKI_pop hOK1 (fun p q h1 h2 h3 _ => hsorted p q h1 h2 h3)
        rcases stack with _ | ⟨⟨pl', pr'⟩, s⟩
        · simp only [npQsortLoop, if_pos hbig, if_pos hdl]
          refine ⟨hPW.perm, hPW.len, ?_⟩
          intro p q hpq hql
          refine hOK2 p q hpq (by rw [hPW.len]; exact hql) ?_
          rintro ⟨r, hr, -⟩
          exact absurd hr (List.not_mem_nil r)
        · simp only [npQsortLoop, if_pos hbig, if_pos hdl]
          have hWf' : WfRegions (aheapsortRange keys t pl pr) ((pl', pr') :: s) := by
            refine ⟨?_, hpw.2⟩
            intro r hr
            rw [hPW.len]
            exact hWf.1 r (List.mem_cons_of_mem _ hr)
          have hm : Rmeasure ((pl', pr') :: s) ≤ fuel := by omega
          obtain ⟨hp, hl, hs⟩ := ih (aheapsortRange keys t pl pr) s pl' pr' (dl - 1)
            hm hWf' hOK2
          refine ⟨hp.trans hPW.perm, hl.trans hPW.len, ?_⟩
          intro p q hpq hql
          exact hs p q hpq (by rw [hPW.len]; exact hql)
      · have hsize : pl + 16 ≤ pr := by omega
        obtain ⟨hPW, hpl2, hpr2, hle, hge⟩ :=
          @npPartition_spec keys t pl pr hpr hsize
        have hOK1 : OKI keys (npPartition keys t pl pr).1 ((pl, pr) :: stack) :=
          OKI_of_permWithin (List.mem_cons_self _ _) hWf.2 hpr hlh hOK hPW
        have hOKs : OKI keys (npPartition keys t pl pr).1
            ((pl, (npPartition keys t pl pr).2 - 1) ::
              ((npPartition keys t pl pr).2 + 1, pr) :: stack) :=
          OKI_split hOK1 hpl2 hpr2 hle hge
        have hdisj2 : ∀ x ∈ stack, pr < x.1 ∨ x.2 < pl := hpw.1
        have hWfs : WfRegions (npPartition keys t pl pr).1
            ((pl, (npPartition keys t pl pr).2 - 1) ::
              ((npPartition keys t pl pr).2 + 1, pr) :: stack) := by
          refine ⟨?_, ?_⟩
          · intro r hr
            rw [hPW.len]
            rcases List.mem_cons.mp hr with he | hm
            · rw [he]
              exact ⟨by simp only []; omega, by simp only []; omega⟩
            · rcases List.mem_cons.mp hm with he | hm'
              · rw [he]
                exact ⟨by simp only []; omega, by simp only []; omega⟩
              · exact hWf.1 r (List.mem_cons_of_mem _ hm')
          · refine List.Pairwise.cons ?_ (List.Pairwise.cons ?_ hpw.2)
            · intro x hx
              rcases List.mem_cons.mp hx with he | hm
              · rw [he]
                refine Or.inl ?_
                simp only []
                omega
              · rcases hdisj2 x hm with hc | hc
                · refine Or.inl ?_
                  simp only []
                  omega
                · refine Or.inr ?_
                  simp only []
                  omega
            · intro x hx
              rcases hdisj2 x hx with hc | hc
              · refine Or.inl ?_
                simp only []
                omega
              · refine Or.inr ?_
                simp only []
                omega
        have hms : Rmeasure
            ((pl, (npPartition keys t pl pr).2 - 1) ::
              ((npPartition keys t pl pr).2 + 1, pr) :: stack) ≤ fuel := by
          simp only [Rmeasure_cons]
          omega
        simp only [npQsortLoop, if_pos hbig, if_neg hdl]
        by_cases hside : (npPartition keys t pl pr).2 - pl <
            pr - (npPartition keys t pl pr).2
        · rw [if_pos hside]
          obtain ⟨hp, hl, hs⟩ := ih (npPartition keys t pl pr).1
            (((npPartition keys t pl pr).2 + 1, pr) :: stack) pl
            ((npPartition keys t pl pr).2 - 1) (dl - 1) hms hWfs hOKs
          refine ⟨hp.trans hPW.perm, hl.trans hPW.len, ?_⟩
          intro p q hpq hql
          exact hs p q hpq (by rw [hPW.len]; exact hql)
        · rw [if_neg hside]
          have hms' : Rmeasure
              (((npPartition keys t pl pr).2 + 1, pr) ::
                (pl, (npPartition keys t pl pr).2 - 1) :: stack) ≤ fuel := by
            rw [← Rmeasure_swap]
            exact hms
          obtain ⟨hp, hl, hs⟩ := ih (npPartition keys t pl pr).1
            ((pl, (npPartition keys t pl pr).2 - 1) :: stack)
            ((npPartition keys t pl pr).2 + 1) pr (dl - 1) hms' (wf_swap hWfs)
            (OKI_swap hOKs)
          refine ⟨hp.trans hPW.perm, hl.trans hPW.len, ?_⟩
          intro p q hpq hql
          exact hs p q hpq (by rw [hPW.len]; exact hql)
    · obtain ⟨hPW, hsorted⟩ := @insSortRange_spec keys t pl pr hlh hpr
      have hOK1 : OKI keys (insSortRange keys t pl pr) ((pl, pr) :: stack) :=
        OKI_of_permWithin (List.mem_cons_self _ _) hWf.2 hpr hlh hOK hPW
      have hOK2 : OKI keys (insSortRange keys t pl pr) stack :=
        OKI_pop hOK1 (fun p q h1 h2 h3 _ => hsorted p q h1 h2 h3)
      rcases stack with _ | ⟨⟨pl', pr'⟩, s⟩
      · simp only [npQsortLoop, if_neg hbig]
        refine ⟨hPW.perm, hPW.len, ?_⟩
        intro p q hpq hql
        refine hOK2 p q hpq (by rw [hPW.len]; exact hql) ?_
        rintro ⟨r, hr, -⟩
        exact absurd hr (List.not_mem_nil r)
      · simp only [npQsortLoop, if_neg hbig]
        have hWf' : WfRegions (insSortRange keys t pl pr) ((pl', pr') :: s) := by
          refine ⟨?_, hpw.2⟩
          intro r hr
          rw [hPW.len]
          exact hWf.1 r (List.mem_cons_of_mem _ hr)
        have hm : Rmeasure ((pl', pr') :: s) ≤ fuel := by omega
        obtain ⟨hp, hl, hs⟩ := ih (insSortRange keys t pl pr) s pl' pr' dl hm hWf' hOK2
        refine ⟨hp.trans hPW.perm, hl.trans hPW.len, ?_⟩
        intro p q hpq hql
        exact hs p q hpq (by rw [hPW.len]; exact hql)

/-- numpy argsort (kind=quicksort, i.e. introsort): the result is a
permutation of the index range, listed in ascending key order. -/
theorem npArgsort_sorted_perm (keys : List Nat) :
    List.Perm (npArgsort keys) (List.range keys.length) ∧
    List.Pairwise (fun a b => keys.getD a 0 ≤ keys.getD b 0) (npArgsort keys) := by
  by_cases hn0 : keys.length = 0
  · have hnil : keys = [] := List.length_eq_zero.mp hn0
    subst hnil
    have h0 : npArgsort ([] : List Nat) = [] := by decide
    rw [h0]
    exact ⟨List.Perm.nil, List.Pairwise.nil⟩
  · have hn : 1 ≤ keys.length := Nat.one_le_iff_ne_zero.mpr hn0
    have hA : npArgsort keys = npQsortLoop keys (2 * keys.length + 1 + 1)
        (List.range keys.length) [] 0 (keys.length - 1)
        (2 * (Nat.log2 keys.length : Int)) := rfl
    rw [hA]
    obtain ⟨hp, hl, hs⟩ := npQsortLoop_spec keys (2 * keys.length + 1 + 1)
      (List.range keys.length) [] 0 (keys.length - 1)
      (2 * (Nat.log2 keys.length : Int))
      (by
        simp only [Rmeasure, List.map_cons, List.map_nil, List.sum_cons, List.sum_nil]
        omega)
      (by
        refine ⟨?_, by simp⟩
        intro r hr
        rcases List.mem_cons.mp hr with he | hm
        · rw [he]
          refine ⟨Nat.zero_le _, ?_⟩
          rw [List.length_range]
          show keys.length - 1 < keys.length
          omega
        · exact absurd hm (List.not_mem_nil r))
      (by
        intro p q hpq hql hnc
        rw [List.length_range] at hql
        exact absurd ⟨(0, keys.length - 1), List.mem_cons_self _ _, Nat.zero_le p,
          by simp only []; omega⟩ hnc)
    refine ⟨hp, ?_⟩
    rw [List.pairwise_iff_getElem]
    intro i j hi hj hij
    have hs' := hs i j hij (hl ▸ hj)
    simp only [keyAt, List.getD_eq_getElem?_getD, List.getElem?_eq_getElem hi,
      List.getElem?_eq_getElem hj, Option.getD_some] at hs'
    simp only [List.getD_eq_getElem?_getD]
    exact hs'

/-- The date sort of line 116 permutes the records: general case, any
number of rows. -/
theorem sortByDate_perm (rs : List Record) : List.Perm (sortByDate rs) rs := by
  unfold sortByDate
  have hp := (npArgsort_sorted_perm (rs.map dateKey)).1.filterMap (fun i => rs.get? i)
  rw [List.length_map, range_filterMap_get rs] at hp
  exact hp

/-- The date sort of line 116 leaves the records ascending by date key:
general case, any number of rows. -/
theorem sortByDate_pairwise (rs : List Record) :
    (sortByDate rs).Pairwise (fun a b => a.date.key ≤ b.date.key) := by
  unfold sortByDate
  rw [List.pairwise_filterMap]
  refine ((npArgsort_sorted_perm (rs.map dateKey)).2).imp ?_
  intro i j hij r hr r' hr'
  rw [Option.mem_def] at hr hr'
  have h1 := keys_getD_eq hr
  have h2 := keys_getD_eq hr'
  rw [h1, h2] at hij
  exact hij

/-- C2 counterexample: `cexTable` holds 17 rows all dated 2024-01-01,
numbered 0..16 by their engagements.  A stable ascending-by-date sort
would return them in input order, but `process_data` (numpy quicksort,
one median-of-3 partition at 17 elements) returns them in the order
0, 14, 13, 12, 11, 10, 9, 15, 8, 6, 5, 4, 3, 2, 1, 7, 16 — equal-date
rows are reordered, so the sort of line 116 is not stable. -/
theorem C2_counterexample :
    (normalizeRows cexTable).map Record.engagements =
      [0, 1, 2, 3, 4, 5, 6, 7, 8, 9, 10, 11, 12, 13, 14, 15, 16] ∧
    (normalizeRows cexTable).Pairwise (fun a b => a.date = b.date) ∧
    (process_data (Upload.table cexTable)).records.map Record.engagements =
      [0, 14, 13, 12, 11, 10, 9, 15, 8, 6, 5, 4, 3, 2, 1, 7, 16] ∧
    (process_data (Upload.table cexTable)).records ≠ normalizeRows cexTable := by
  decide

/-- C2 (amended): on every successfully processed upload the output is
sorted ascending by date and is a permutation of the normalized rows; the
sort is the numpy introsort behind `sort_values(kind='quicksort')`, which
is NOT stable in general (see the 17-row counterexample), but for uploads
in which at most 16 rows survive date-parsing it degenerates to one
stable insertion sort, so there ties do keep their original CSV order:
for every date, the subsequence of records of that date equals the
corresponding subsequence of the (order-preserving) pre-sort
normalization. -/
theorem C2_sorted_stable (t : RawTable) (out : List Record)
    (hout : process_data (Upload.table t) = ⟨out, none⟩) :
    out.Pairwise (fun a b => a.date.key ≤ b.date.key) ∧
    List.Perm out (normalizeRows t) ∧
    ((normalizeRows t).length ≤ 16 →
      ∀ d : Date, out.filter (fun r => r.date == d) =
        (normalizeRows t).filter (fun r => r.date == d)) := by
  have hDate : "Date" ∈ t.columns := by
    by_contra hd
    simp [process_data, hd] at hout
  have hEng : "Engagements" ∈ t.columns := by
    by_contra hd
    simp [process_data, hDate, hd] at hout
  have hrec : out = sortByDate (normalizeRows t) := by
    by_cases hinf : t.rows.any (fun row => cellIsInf (cellAt t.columns row "Engagements")) = true
    · simp [process_data, hDate, hEng, hinf] at hout
    · simp only [process_data, if_pos hDate, if_pos hEng, if_neg hinf] at hout
      exact ((ProcessResult.mk.injEq _ _ _ _).mp hout).1.symm
  subst hrec
  exact ⟨sortByDate_pairwise (normalizeRows t), sortByDate_perm (normalizeRows t),
    fun h16 d => sortByDate_stable_small h16 (fun r hr => normalizeRows_wf hr) d⟩

/-- Witness for C2 at the worked example (2 surviving rows): the output
is date-sorted, permutes the normalized rows, and the 2024-01-01
subsequence is untouched. -/
theorem C2_witness :
    ([exRec1, exRec2] : List Record).Pairwise (fun a b => a.date.key ≤ b.date.key) ∧
    List.Perm ([exRec1, exRec2] : List Record) (normalizeRows exTable) ∧
    ([exRec1, exRec2] : List Record).filter (fun r => r.date == (⟨2024, 1, 1⟩ : Date)) =
      (normalizeRows exTable).filter (fun r => r.date == (⟨2024, 1, 1⟩ : Date)) :=
  ⟨(C2_sorted_stable exTable [exRec1, exRec2] (by decide)).1,
   (C2_sorted_stable exTable [exRec1, exRec2] (by decide)).2.1,
   (C2_sorted_stable exTable [exRec1, exRec2] (by decide)).2.2 (by decide) ⟨2024, 1, 1⟩⟩

end MediaIntel
